import Mathlib

/-!
# neon URI routines (`src/ne_uri.c`)

A shallow embedding of the URI parser, serializer and helpers of `ne_uri.c`.

Conventions of the embedding.

* A C string is the list of its bytes before the terminator; a byte is a
  `Nat` below 256.  A pointer into a string is represented by the suffix
  that starts at it, so `*p` is `p.headD 0`: at the end of the string the
  terminator `0` is read.  One read of the code passes the terminator:
  `atoi(p + 1)` at line 216 with `p == pa` at the end of the input, which
  happens for a bracketed host whose `]` is the last byte of the input.  What
  the code reads there is not part of the input; `parse_hostport` reads an
  empty text, so its port is not the code's for such an input.
* `ne_uri_parse` reads its input through `const char *` and the macro
  `uri_lookup` converts that `char` with `(unsigned)`.  Where `char` is signed
  the index of a byte from 0x80 on is outside the table (`char_index`,
  `uri_lookup_char`); the parser is modelled with the lookup by byte value,
  which is the code's lookup for every byte below 0x80 (`lookup_char_ascii`).
  `ne_path_escape` reads through `const unsigned char *`, so there the lookup
  by byte value is the code's for every byte.
* A `char *` field that may be `NULL` is an `Option`; a function that
  dereferences a `NULL` field has the result `none`.
* `ne_uri_parse` returns `none` for the C result `-1` and `some parsed` for `0`.
* `ne_strndup(s, n)` is the list of the `n` bytes from `s`.
-/

namespace NeUri

/-! ## Character classes (lines 47-113) -/

def PS : Nat := 0x0001
def PC : Nat := 0x0002
def DS : Nat := 0x0004
def DT : Nat := 0x0008
def US : Nat := 0x0010
def TD : Nat := 0x0020
def FS : Nat := 0x0040
def CL : Nat := 0x0080
def AT : Nat := 0x0100
def QU : Nat := 0x0200
def DG : Nat := 0x0400
def AL : Nat := 0x0800
def GD : Nat := 0x1000
def SD : Nat := 0x2000
def OT : Nat := 0x4000

def URI_ALPHA : Nat := AL
def URI_DIGIT : Nat := DG
def URI_UNRESERVED : Nat := AL ||| DG ||| DS ||| DT ||| US ||| TD
def URI_SCHEME : Nat := AL ||| DG ||| PS ||| DS ||| DT
def URI_SUBDELIM : Nat := PS ||| SD
def URI_GENDELIM : Nat := GD ||| CL ||| FS ||| AT ||| QU
def URI_USERINFO : Nat := URI_UNRESERVED ||| PC ||| URI_SUBDELIM ||| CL
def URI_PCHAR : Nat := URI_UNRESERVED ||| PC ||| URI_SUBDELIM ||| CL ||| AT
def URI_SEGCHAR : Nat := URI_PCHAR ||| FS
def URI_QUERY : Nat := URI_PCHAR ||| FS ||| QU

/-- The table `uri_chars[256]`, row by row as in the source. -/
def uri_chars : List Nat :=
  [ OT, OT, OT, OT, OT, OT, OT, OT, OT, OT, OT, OT, OT, OT, OT, OT,
    OT, OT, OT, OT, OT, OT, OT, OT, OT, OT, OT, OT, OT, OT, OT, OT,
    OT, SD, OT, GD, SD, PC, SD, SD, SD, SD, SD, PS, SD, DS, DT, FS,
    DG, DG, DG, DG, DG, DG, DG, DG, DG, DG, CL, SD, OT, SD, OT, QU,
    AT, AL, AL, AL, AL, AL, AL, AL, AL, AL, AL, AL, AL, AL, AL, AL,
    AL, AL, AL, AL, AL, AL, AL, AL, AL, AL, AL, GD, OT, GD, OT, US,
    OT, AL, AL, AL, AL, AL, AL, AL, AL, AL, AL, AL, AL, AL, AL, AL,
    AL, AL, AL, AL, AL, AL, AL, AL, AL, AL, AL, OT, OT, OT, TD, OT,
    OT, OT, OT, OT, OT, OT, OT, OT, OT, OT, OT, OT, OT, OT, OT, OT,
    OT, OT, OT, OT, OT, OT, OT, OT, OT, OT, OT, OT, OT, OT, OT, OT,
    OT, OT, OT, OT, OT, OT, OT, OT, OT, OT, OT, OT, OT, OT, OT, OT,
    OT, OT, OT, OT, OT, OT, OT, OT, OT, OT, OT, OT, OT, OT, OT, OT,
    OT, OT, OT, OT, OT, OT, OT, OT, OT, OT, OT, OT, OT, OT, OT, OT,
    OT, OT, OT, OT, OT, OT, OT, OT, OT, OT, OT, OT, OT, OT, OT, OT,
    OT, OT, OT, OT, OT, OT, OT, OT, OT, OT, OT, OT, OT, OT, OT, OT,
    OT, OT, OT, OT, OT, OT, OT, OT, OT, OT, OT, OT, OT, OT, OT, OT ]

/-- The lookup `uri_lookup(ch)` for `ch` an `unsigned char`, as
`ne_path_escape` reads it (line 302): the index is the value of the byte, from
0 to 255, and the default is never used for a byte.  In `ne_uri_parse` the
argument is a plain `char`; this is the entry the code reads there for a byte
below 0x80, and for a byte from 0x80 on only where `char` is unsigned (see
`char_index`). -/
def uri_lookup (ch : Nat) : Nat := uri_chars.getD ch 0

/-- The index `(unsigned)ch` of the macro `uri_lookup` (line 113) for `ch` a
plain `char` holding the byte `b`, as in `ne_uri_parse`, where `char` is
signed: a byte from 0x80 on is the `char` `b - 256`, and the conversion to
`unsigned` (32 bits) gives `2^32 + b - 256`. -/
def char_index (b : Nat) : Nat := if b < 128 then b else 4294967296 - (256 - b)

/-- The entry `uri_chars[(unsigned)ch]` for a plain `char` holding the byte
`b`: `none` when the index is outside the 256 entries of the table, where the
read has no defined result. -/
def uri_lookup_char (b : Nat) : Option Nat :=
  if char_index b < uri_chars.length then some (uri_chars.getD (char_index b) 0) else none

/-- Line 160, the test `uri_lookup(*p) & URI_ALPHA` on the first byte of the
input, with the lookup of a plain `char`: `none` when the lookup is outside
the table. -/
def scheme_test (uri : List Nat) : Option Bool :=
  (uri_lookup_char (uri.headD 0)).map (fun e => (e &&& URI_ALPHA) != 0)

/-- The test `uri_lookup(ch) & mask` of the scanning loops, as a boolean. -/
def inClass (mask : Nat) (ch : Nat) : Bool := (uri_lookup ch &&& mask) != 0

/-! ## The C library functions the code calls -/

/-- The function `tolower` in the C locale. -/
def tolower (c : Nat) : Nat := if 65 ≤ c ∧ c ≤ 90 then c + 32 else c

/-- The function `strcmp`: difference of the first pair of differing bytes
(the terminator counting as 0), 0 when there is none. -/
def strcmp : List Nat → List Nat → Int
  | [], [] => 0
  | [], b :: _ => - (b : Int)
  | a :: _, [] => (a : Int)
  | a :: as, b :: bs => if a = b then strcmp as bs else (a : Int) - (b : Int)

/-- The function `strcasecmp`: `strcmp` on the lower-cased bytes. -/
def strcasecmp (a b : List Nat) : Int := strcmp (a.map tolower) (b.map tolower)

/-- The function `isspace` in the C locale. -/
def isspace (c : Nat) : Bool := c == 32 || (9 ≤ c && c ≤ 13)

/-- The function `isdigit`. -/
def isdigit (c : Nat) : Bool := 48 ≤ c && c ≤ 57

/-- Digit accumulation of `atoi`: the value of the leading decimal digits of
`s`, continuing from `acc`. -/
def atoi_digits : List Nat → Nat → Nat
  | [], acc => acc
  | c :: cs, acc => if isdigit c then atoi_digits cs (10 * acc + (c - 48)) else acc

/-- The function `atoi`: skip white space, take an optional sign, convert the
leading decimal digits.  The value is the mathematical one; C defines the
result only when it fits an `int`. -/
def atoi (s : List Nat) : Int :=
  match s.dropWhile isspace with
  | 45 :: cs => - (atoi_digits cs 0 : Int)
  | 43 :: cs => (atoi_digits cs 0 : Int)
  | cs => (atoi_digits cs 0 : Int)

/-- Conversion of an `int` to `unsigned int` (32 bits), as in the assignment
`parsed->port = atoi(p + 1)`. -/
def to_unsigned (x : Int) : Nat := (x % 4294967296).toNat

/-! ## The component set -/

/-- Modelled from the spec: the structure `ne_uri`, declared in `ne_uri.h`,
which is not among the sources.  The fields are the components of the spec
(section 3), under the names the code uses; `port` is an `unsigned int`, the
type of `ne_uri_defaultport`, with which the code compares it. -/
structure ne_uri where
  scheme : Option (List Nat)
  host : Option (List Nat)
  userinfo : Option (List Nat)
  port : Nat
  path : Option (List Nat)
  query : Option (List Nat)
  fragment : Option (List Nat)
deriving DecidableEq

/-- Bytes of a text, for writing inputs down. -/
def bytes (s : String) : List Nat := s.toList.map Char.toNat

/-! ## `ne_uri_parse` (lines 148-262) -/

/-- Lines 160-168: the scheme, and the position `s` after it.  `p` runs over
the `URI_SCHEME` bytes; the scheme is kept when `*p == ':'`. -/
def parse_scheme (uri : List Nat) : Option (List Nat) × List Nat :=
  if inClass URI_ALPHA (uri.headD 0) then
    let run := uri.takeWhile (inClass URI_SCHEME)
    let p := uri.dropWhile (inClass URI_SCHEME)
    if p.headD 0 = 58 then (some run, p.tail) else (none, uri)
  else (none, uri)

/-- Lines 183-189: the userinfo.  `auth` is the text between `s` and `pa`,
`pa` the text from `pa` on.  `p` runs over the `URI_USERINFO` bytes below
`pa`; the result is the userinfo and the text between the new `s` and `pa`. -/
def parse_userinfo (auth pa : List Nat) : Option (List Nat) × List Nat :=
  let p := auth.dropWhile (inClass URI_USERINFO)
  if (p ++ pa).headD 0 = 64 then (some (auth.takeWhile (inClass URI_USERINFO)), p.tail)
  else (none, auth)

/-- Lines 206-208: `p = pa; while (*p != ':' && p > s) p--;`.  `mem` is the
text from `s` on and `n` is `p - s`; the result is the final `p - s`. -/
def find_colon (mem : List Nat) : Nat → Nat
  | 0 => 0
  | n + 1 => if mem.getD (n + 1) 0 ≠ 58 then find_colon mem n else n + 1

/-- Lines 192-218: host and port.  `hp` is the text between `s` (the host) and
`pa`, `pa` the text from `pa` on.  The result is `none` for `return -1`, else
the host and the port.  For a bracketed `hp` whose `]` is its last byte, `p`
equals `pa` after `p++`, and `atoi(p + 1)` reads from one byte after `pa`:
when `pa` is the end of the input that byte is past the terminator, and the
port 0 given here (an empty text is read) is not the code's, which depends on
the memory after the string. -/
def parse_hostport (hp pa : List Nat) : Option (List Nat × Nat) :=
  if (hp ++ pa).headD 0 = 91 then
    -- p = s + 1; while (*p != ']' && p < pa) p++;
    let lit := hp.tail.takeWhile (fun c => c != 93)
    let p := hp.tail.dropWhile (fun c => c != 93)
    -- p == pa || (p + 1 != pa && p[1] != ':')
    if p = [] ∨ (p.tail ≠ [] ∧ p.tail.headD 0 ≠ 58) then none
    else
      -- p++; here p != s
      let q := p.tail
      -- p + 1 != pa, with p + 1 past pa when p == pa
      let port := if q.length ≠ 1 then to_unsigned (atoi ((q ++ pa).drop 1)) else 0
      some (91 :: lit ++ [93], port)
  else
    let i := find_colon (hp ++ pa) hp.length
    if i = 0 then some (hp, 0)
    else
      let port := if i + 1 ≠ hp.length then to_unsigned (atoi ((hp ++ pa).drop (i + 1))) else 0
      some (hp.take i, port)

/-- Lines 228-261: path, query and fragment from the path start `s`.  The
result is `none` for `return -1`, else path, query and fragment. -/
def parse_tail (s : List Nat) :
    Option (List Nat × Option (List Nat) × Option (List Nat)) :=
  let path := s.takeWhile (inClass URI_SEGCHAR)
  let p := s.dropWhile (inClass URI_SEGCHAR)
  if p.headD 0 = 0 then some (path, none, none)
  else
    -- s = p++; while (uri_lookup(*p) & URI_QUERY) p++;
    let s1 := p
    let p1 := p.tail.dropWhile (inClass URI_QUERY)
    if s1.headD 0 = 63 then
      let query := some (s1.tail.takeWhile (inClass URI_QUERY))
      if p1.headD 0 ≠ 0 then
        -- s = p++; while (uri_lookup(*p) & URI_QUERY) p++;
        let s2 := p1
        let p2 := p1.tail.dropWhile (inClass URI_QUERY)
        if s2.headD 0 = 35 then
          some (path, query, some (s2.tail.takeWhile (inClass URI_QUERY)))
        else if p2.headD 0 ≠ 0 ∨ s2.headD 0 ≠ 63 then none
        else some (path, query, none)
      else
        -- here *s == '?' and *p == 0
        some (path, query, none)
    else if s1.headD 0 = 35 then
      some (path, none, some (s1.tail.takeWhile (inClass URI_QUERY)))
    else none

/-- Lines 170-261 of `ne_uri_parse`: everything after the scheme, from the
position `s`.  The scheme of the result is left absent. -/
def parse_hier (s : List Nat) : Option ne_uri :=
  if s.headD 0 = 47 ∧ s.tail.headD 0 = 47 then
    -- s = pa = s + 2; while (*pa != '/' && *pa != '\0') pa++;
    let auth := (s.drop 2).takeWhile (fun c => c != 47 && c != 0)
    let pa := (s.drop 2).dropWhile (fun c => c != 47 && c != 0)
    let hp := (parse_userinfo auth pa).2
    match parse_hostport hp pa with
    | none => none
    | some (host, port) =>
      -- s = pa; if (*s == '\0') s = "/";
      match parse_tail (if pa.headD 0 = 0 then [47] else pa) with
      | none => none
      | some (path, query, fragment) =>
        some { scheme := none, host := some host, userinfo := (parse_userinfo auth pa).1,
               port := port, path := some path, query := query, fragment := fragment }
  else
    match parse_tail s with
    | none => none
    | some (path, query, fragment) =>
      some { scheme := none, host := none, userinfo := none, port := 0,
             path := some path, query := query, fragment := fragment }

/-- The function `ne_uri_parse`: `none` is the result `-1`. -/
def ne_uri_parse (uri : List Nat) : Option ne_uri :=
  if uri.headD 0 = 0 then none
  else
    match parse_hier (parse_scheme uri).2 with
    | none => none
    | some parsed => some { parsed with scheme := (parse_scheme uri).1 }

/-- The state of `ne_uri_parse` at line 190 ("=> s = host") when the input has
a `//` authority: the text between `s` and `pa`, and the text from `pa` on. -/
def host_part (uri : List Nat) : Option (List Nat × List Nat) :=
  let s := (parse_scheme uri).2
  if s.headD 0 = 47 ∧ s.tail.headD 0 = 47 then
    let auth := (s.drop 2).takeWhile (fun c => c != 47 && c != 0)
    let pa := (s.drop 2).dropWhile (fun c => c != 47 && c != 0)
    some ((parse_userinfo auth pa).2, pa)
  else none

/-! ## `ne_uri_defaultport`, `ne_uri_unparse`, `ne_uri_cmp` -/

/-- The function `ne_uri_defaultport` (lines 137-146). -/
def ne_uri_defaultport (scheme : List Nat) : Nat :=
  if strcasecmp scheme [104, 116, 116, 112] = 0 then 80
  else if strcasecmp scheme [104, 116, 116, 112, 115] = 0 then 443
  else 0

/-- Decimal digits of `n`, most significant first, in front of `acc`; `fuel`
bounds the number of digits. -/
def decimal_aux : Nat → Nat → List Nat → List Nat
  | 0, _, acc => acc
  | fuel + 1, n, acc =>
    if n < 10 then (48 + n) :: acc else decimal_aux fuel (n / 10) ((48 + n % 10) :: acc)

/-- The decimal numeral of `n`. -/
def decimal (n : Nat) : List Nat := decimal_aux (n + 1) n []

/-- The conversion `%d` applied to an `unsigned int` argument: the 32 bits
are read as an `int`. -/
def fmt_d (u : Nat) : List Nat :=
  if u < 2147483648 then decimal u else 45 :: decimal (4294967296 - u)

/-- The function `ne_uri_unparse` (lines 386-412).  The buffer functions
`ne_buffer_concat` and `ne_buffer_zappend` append their arguments, and
`ne_snprintf` writes `:` and the port under `%d`.  The code passes scheme, host
and path on without a test; the result is `none` when one of them is `NULL`. -/
def ne_uri_unparse (uri : ne_uri) : Option (List Nat) :=
  match uri.scheme, uri.host, uri.path with
  | some scheme, some host, some path =>
    some (scheme ++ [58, 47, 47]
      ++ (match uri.userinfo with | some ui => ui | none => [])
      ++ (match uri.userinfo with | some _ => [64] | none => [])
      ++ host
      ++ (if uri.port > 0 ∧ ne_uri_defaultport scheme ≠ uri.port
          then 58 :: fmt_d uri.port else [])
      ++ path
      ++ (match uri.query with | some q => 63 :: q | none => [])
      ++ (match uri.fragment with | some f => 35 :: f | none => []))
  | _, _, _ => none

/-- The function `ne_uri_cmp` (lines 337-354).  The code dereferences both
paths, and hosts and schemes when it reaches them; the result is `none` when
it dereferences a `NULL` field. -/
def ne_uri_cmp (u1 u2 : ne_uri) : Option Int :=
  match u1.path, u2.path with
  | some p1, some p2 =>
    if p1.headD 0 = 0 ∧ strcmp p2 [47] = 0 then some 0
    else if p2.headD 0 = 0 ∧ strcmp p1 [47] = 0 then some 0
    else if strcmp p1 p2 ≠ 0 then some (strcmp p1 p2)
    else
      match u1.host, u2.host with
      | some h1, some h2 =>
        if strcasecmp h1 h2 ≠ 0 then some (strcasecmp h1 h2)
        else
          match u1.scheme, u2.scheme with
          | some s1, some s2 =>
            if strcasecmp s1 s2 ≠ 0 then some (strcasecmp s1 s2)
            else if u1.port > u2.port then some 1
            else if u1.port < u2.port then some (-1)
            else some 0
          | _, _ => none
      | _, _ => none
  | _, _ => none

/-! ## Path functions (lines 115-135, 365-384, 416-429) -/

/-- The second loop of `ne_path_parent`, `while (pnt > uri && *pnt != '/') pnt--;`.
`n` is `pnt - uri`; the result is the final `pnt - uri`. -/
def find_slash (uri : List Nat) : Nat → Nat
  | 0 => 0
  | n + 1 => if uri.getD (n + 1) 0 ≠ 47 then find_slash uri n else n + 1

/-- The function `ne_path_parent` (lines 115-128).  The offset `pnt - uri` is an
integer, -1 for the position before the text; `none` is the result `NULL`. -/
def ne_path_parent (uri : List Nat) : Option (List Nat) :=
  let pnt : Int := (uri.length : Int) - 1
  -- if (pnt >= uri && *pnt == '/') pnt--;
  let pnt1 : Int := if 0 ≤ pnt ∧ uri.getD pnt.toNat 0 = 47 then pnt - 1 else pnt
  -- while (pnt > uri && *pnt != '/') pnt--;
  let pnt2 : Int := if 0 < pnt1 then (find_slash uri pnt1.toNat : Int) else pnt1
  if pnt2 < 0 ∨ (pnt2 = 0 ∧ uri.getD 0 0 ≠ 47) then none
  else some (uri.take (pnt2.toNat + 1))

/-- The function `ne_path_has_trailing_slash` (lines 130-135), as a truth
value. -/
def ne_path_has_trailing_slash (uri : List Nat) : Bool :=
  decide (0 < uri.length) && uri.getD (uri.length - 1) 0 == 47

/-- The function `strncasecmp`: `strcasecmp` on the first `n` bytes. -/
def strncasecmp (a b : List Nat) (n : Nat) : Int := strcasecmp (a.take n) (b.take n)

/-- The function `ne_path_compare` (lines 365-384). -/
def ne_path_compare (a b : List Nat) : Int :=
  let ret := strcasecmp a b
  if ret ≠ 0 then
    let traila := ne_path_has_trailing_slash a
    let trailb := ne_path_has_trailing_slash b
    let lena : Int := a.length
    let lenb : Int := b.length
    if traila ≠ trailb ∧ (lena - lenb).natAbs = 1 ∧
        ((traila = true ∧ lena > lenb) ∨ (trailb = true ∧ lenb > lena)) then
      if strncasecmp a b (min lena lenb).toNat = 0 then 0 else ret
    else ret
  else ret

/-- The function `ne_path_childof` (lines 416-429), as a truth value.  `root`
is the copy of `child` cut after `strlen(parent)` bytes. -/
def ne_path_childof (parent child : List Nat) : Bool :=
  if parent.length ≥ child.length then false
  else
    let root := child.take parent.length
    decide (ne_path_compare parent root = 0)

/-! ## Percent-encoding (lines 273-326) -/

/-- The value of a hexadecimal digit, of either case. -/
def hexval (c : Nat) : Option Nat :=
  if 48 ≤ c ∧ c ≤ 57 then some (c - 48)
  else if 97 ≤ c ∧ c ≤ 102 then some (c - 87)
  else if 65 ≤ c ∧ c ≤ 70 then some (c - 55)
  else none

/-- The function `isxdigit`. -/
def isxdigit (c : Nat) : Bool := (hexval c).isSome

/-- Digit accumulation of `strtol` in base 16: the value of the leading
hexadecimal digits of `s`, continuing from `acc`. -/
def strtol_digits : List Nat → Nat → Nat
  | [], acc => acc
  | c :: cs, acc =>
    match hexval c with
    | some v => strtol_digits cs (16 * acc + v)
    | none => acc

/-- The call `strtol(s, NULL, 16)`: skip white space, take an optional sign and
an optional `0x` or `0X` that a hexadecimal digit follows, convert the leading
hexadecimal digits. -/
def strtol16 (s : List Nat) : Int :=
  let body (t : List Nat) : Nat :=
    match t with
    | 48 :: x :: d :: r =>
      if (x = 120 ∨ x = 88) ∧ isxdigit d = true then strtol_digits (d :: r) 0
      else strtol_digits t 0
    | _ => strtol_digits t 0
  match s.dropWhile isspace with
  | 45 :: cs => - (body cs : Int)
  | 43 :: cs => (body cs : Int)
  | cs => (body cs : Int)

/-- The cast `(char)` of a `long`, as the byte stored. -/
def to_char (x : Int) : Nat := (x % 256).toNat

/-- The function `ne_path_unescape` (lines 273-294): the bytes written to the
buffer before its terminator; `none` is the result `NULL`.  `buf` is `"0x"`
followed by the two bytes after the `%`. -/
def ne_path_unescape : List Nat → Option (List Nat)
  | [] => some []
  | c :: rest =>
    if c = 37 then
      match rest with
      | x :: y :: rest2 =>
        if !isxdigit x || !isxdigit y then none
        else
          match ne_path_unescape rest2 with
          | none => none
          | some r => some (to_char (strtol16 [48, 120, x, y]) :: r)
      | _ => none
    else
      match ne_path_unescape rest with
      | none => none
      | some r => some (c :: r)

/-- The mask `URI_ESCAPE` (line 91); `~(FS)` is the complement in 32 bits. -/
def URI_ESCAPE : Nat := (URI_GENDELIM &&& (4294967295 ^^^ FS)) ||| URI_SUBDELIM ||| OT

/-- The macro `path_escape_ch(ch)`: the masked table entry, not 0 or 1. -/
def path_escape_ch (ch : Nat) : Nat := uri_lookup ch &&& URI_ESCAPE

/-- The first loop of `ne_path_escape` (lines 306-308): `count` grows by the
masked table entry of each byte.  `count` is a `size_t`; an entry is at most
`0x4000`, so the sum stays below 2^64 for any text shorter than 2^50 bytes and
is taken as a natural number. -/
def escape_count : List Nat → Nat → Nat
  | [], count => count
  | c :: cs, count => escape_count cs (count + path_escape_ch c)

/-- A hexadecimal digit as `%x` writes it. -/
def hex_lower (d : Nat) : Nat := if d < 10 then 48 + d else 87 + d

/-- The second loop of `ne_path_escape` (lines 315-323); `sprintf` with
`"%%%02x"` writes `%` and the two hexadecimal digits of the byte. -/
def escape_loop : List Nat → List Nat
  | [] => []
  | c :: cs =>
    if path_escape_ch c ≠ 0 then
      37 :: hex_lower (c % 256 / 16) :: hex_lower (c % 256 % 16) :: escape_loop cs
    else c :: escape_loop cs

/-- The function `ne_path_escape` (lines 300-326). -/
def ne_path_escape (path : List Nat) : List Nat :=
  if escape_count path 0 = 0 then path else escape_loop path

/-! ## Vocabulary of the claims -/

/-- ALPHA: an ASCII letter. -/
def is_alpha (c : Nat) : Bool := (65 ≤ c && c ≤ 90) || (97 ≤ c && c ≤ 122)

/-- SCHEME-CHAR: alpha, digit, `+`, `-` or `.`. -/
def is_scheme_char (c : Nat) : Bool :=
  is_alpha c || isdigit c || c == 43 || c == 45 || c == 46

/-- The decimal numeral of a positive `n`, from its base-10 digits. -/
def numeral (n : Nat) : List Nat := (Nat.digits 10 n).reverse.map (fun d => 48 + d)

/-- The text `?query` or nothing. -/
def query_text (q : Option (List Nat)) : List Nat :=
  match q with
  | some q => 63 :: q
  | none => []

/-- The text `#fragment` or nothing. -/
def fragment_text (f : Option (List Nat)) : List Nat :=
  match f with
  | some f => 35 :: f
  | none => []

/-- A scheme: an ALPHA byte followed by SCHEME-CHAR bytes. -/
def is_scheme (run : List Nat) : Prop :=
  (∃ a, run.head? = some a ∧ is_alpha a = true) ∧ ∀ c ∈ run, is_scheme_char c = true

/-- The optional scheme in front of the rest of a URI: nothing, or a scheme
and `:`. -/
def scheme_lead (sch : Option (List Nat)) : List Nat :=
  match sch with
  | some run => run ++ [58]
  | none => []

/-- The text `userinfo@` or nothing. -/
def userinfo_text (ui : Option (List Nat)) : List Nat :=
  match ui with
  | some x => x ++ [64]
  | none => []

/-- The text of an absolute URI: `scheme://`, the optional `userinfo@`, the
host with its optional port, the path, the optional `?query` and the optional
`#fragment`. -/
def uri_text (scheme : List Nat) (ui : Option (List Nat)) (hostport path : List Nat)
    (q f : Option (List Nat)) : List Nat :=
  scheme_lead (some scheme) ++ 47 :: 47 ::
    ((userinfo_text ui ++ hostport) ++ (path ++ (query_text q ++ fragment_text f)))

/-- The text `:port` that `ne_uri_unparse` writes after the host, or nothing. -/
def port_text (scheme : List Nat) (port : Nat) : List Nat :=
  if port > 0 ∧ ne_uri_defaultport scheme ≠ port then 58 :: fmt_d port else []

/-- Default-port normalization: the default port of the scheme counts as the
unspecified port 0. -/
def norm_port (scheme : List Nat) (port : Nat) : Nat :=
  if port = ne_uri_defaultport scheme then 0 else port

/-- The text `:port` as written in a URI, or nothing. -/
def written_port (pt : Option (List Nat)) : List Nat :=
  match pt with
  | some d => 58 :: d
  | none => []

/-- The host part of an authority whose host is a registered name: the name,
made of unreserved bytes, `%` and sub-delims, and an optional `:` with digits. -/
def is_regname_hostport (hp : List Nat) : Prop :=
  ∃ host pt, hp = host ++ written_port pt ∧
    (∀ b ∈ host, inClass (URI_UNRESERVED ||| PC ||| URI_SUBDELIM) b = true) ∧
    (∀ d, pt = some d → ∀ b ∈ d, isdigit b = true)

/-- The host part of an authority whose host is a bracketed IP-literal, made of
unreserved bytes, sub-delims and `:`, with a written port that is neither 0
nor the default port of the scheme. -/
def is_literal_hostport (scheme hp : List Nat) : Prop :=
  ∃ lit d, hp = 91 :: (lit ++ 93 :: 58 :: d) ∧
    (∀ b ∈ lit, inClass (URI_UNRESERVED ||| URI_SUBDELIM ||| CL) b = true) ∧
    d ≠ [] ∧ (∀ b ∈ d, isdigit b = true) ∧
    to_unsigned (atoi d) ≠ 0 ∧ to_unsigned (atoi d) ≠ ne_uri_defaultport scheme

/-- UNRESERVED: an ASCII letter, a digit or one of `-`, `.`, `_`, `~`. -/
def is_unreserved (c : Nat) : Bool :=
  is_alpha c || isdigit c || c == 45 || c == 46 || c == 95 || c == 126

/-- A sub-delim: one of `!`, `$`, `&`, `'`, `(`, `)`, `*`, `+`, `,`, `;`, `=`. -/
def is_subdelim (c : Nat) : Bool :=
  decide (c ∈ [33, 36, 38, 39, 40, 41, 42, 43, 44, 59, 61])

/-- A gen-delim: one of `:`, `/`, `?`, `#`, `[`, `]`, `@`. -/
def is_gendelim (c : Nat) : Bool :=
  decide (c ∈ [58, 47, 63, 35, 91, 93, 64])

/-- The test of the trailing-slash exception in `ne_path_compare`. -/
def slash_exception (a b : List Nat) : Prop :=
  ne_path_has_trailing_slash a ≠ ne_path_has_trailing_slash b ∧
    ((a.length : Int) - (b.length : Int)).natAbs = 1 ∧
    ((ne_path_has_trailing_slash a = true ∧ (a.length : Int) > (b.length : Int)) ∨
     (ne_path_has_trailing_slash b = true ∧ (b.length : Int) > (a.length : Int)))

/-- The text `p` with one trailing `/` removed, if it ends in `/`. -/
def strip_slash (p : List Nat) : List Nat :=
  if p.getLast? = some 47 then p.dropLast else p

/-- The scan of `ne_path_unescape` that reaches the end: `Decodes u r` says
that every `%` met by the scan is followed by two hexadecimal digits, and `r`
is `u` with each such `%XY` replaced by the byte `16 * hex X + hex Y`. -/
inductive Decodes : List Nat → List Nat → Prop
  | done : Decodes [] []
  | pct (x y vx vy : Nat) (u r : List Nat) : hexval x = some vx → hexval y = some vy →
      Decodes u r → Decodes (37 :: x :: y :: u) ((16 * vx + vy) :: r)
  | byte (c : Nat) (u r : List Nat) : c ≠ 37 → Decodes u r → Decodes (c :: u) (c :: r)

/-- The scan of `ne_path_unescape` reaches a `%` that is not followed by two
hexadecimal digits. -/
inductive Malformed : List Nat → Prop
  | here (u : List Nat) :
      (¬ ∃ x y t, u = x :: y :: t ∧ isxdigit x = true ∧ isxdigit y = true) →
      Malformed (37 :: u)
  | pct (x y : Nat) (u : List Nat) : isxdigit x = true → isxdigit y = true →
      Malformed u → Malformed (37 :: x :: y :: u)
  | byte (c : Nat) (u : List Nat) : c ≠ 37 → Malformed u → Malformed (c :: u)

/-- The text written for one byte by the encoding of the claim: `%` and two
lower-case hexadecimal digits for an ESCAPE-WORTHY byte, the byte otherwise. -/
def escape_byte (b : Nat) : List Nat :=
  if inClass URI_ESCAPE b then
    [37, (Nat.digitChar (b / 16)).toNat, (Nat.digitChar (b % 16)).toNat]
  else [b]

/-! ## Scanning lemmas -/

theorem takeWhile_app {p : Nat → Bool} {l₁ l₂ : List Nat} (h1 : ∀ a ∈ l₁, p a = true)
    (h2 : ∀ a, l₂.head? = some a → p a = false) : (l₁ ++ l₂).takeWhile p = l₁ := by
  rw [List.takeWhile_append_of_pos h1]
  cases l₂ with
  | nil => simp
  | cons b bs => simp [List.takeWhile_cons, h2 b rfl]

theorem dropWhile_app {p : Nat → Bool} {l₁ l₂ : List Nat} (h1 : ∀ a ∈ l₁, p a = true)
    (h2 : ∀ a, l₂.head? = some a → p a = false) : (l₁ ++ l₂).dropWhile p = l₂ := by
  rw [List.dropWhile_append_of_pos h1]
  cases l₂ with
  | nil => simp
  | cons b bs => simp [List.dropWhile_cons, h2 b rfl]

/-- With a `//` authority, the parse fails exactly when the host check or the
scan of path, query and fragment fails. -/
theorem parse_none_of_host_part {u hp pa : List Nat} (h0 : u.headD 0 ≠ 0)
    (h : host_part u = some (hp, pa)) :
    ne_uri_parse u = none ↔
      (parse_hostport hp pa = none ∨
        parse_tail (if pa.headD 0 = 0 then [47] else pa) = none) := by
  by_cases hs : (parse_scheme u).2.headD 0 = 47 ∧ (parse_scheme u).2.tail.headD 0 = 47
  · simp only [host_part, hs, and_self, if_true, Option.some.injEq, Prod.mk.injEq] at h
    obtain ⟨h1, h2⟩ := h
    subst h2
    subst h1
    simp only [ne_uri_parse, parse_hier, h0, if_false, hs, and_self, if_true]
    generalize parse_hostport _ _ = r
    generalize parse_tail _ = t
    cases r with
    | none => simp
    | some r =>
      obtain ⟨host, port⟩ := r
      cases t with
      | none => simp
      | some t => obtain ⟨path, query, fragment⟩ := t; simp
  · simp only [host_part, hs, if_false, reduceCtorEq] at h

/-- With a `//` authority, host and port of a successful parse are those of
the host scan. -/
theorem parse_some_of_host_part {u hp pa : List Nat} {c : ne_uri}
    (h : host_part u = some (hp, pa)) (hc : ne_uri_parse u = some c) :
    ∃ host, parse_hostport hp pa = some (host, c.port) ∧ c.host = some host := by
  by_cases h0 : u.headD 0 = 0
  · simp only [ne_uri_parse, h0, if_true, reduceCtorEq] at hc
  by_cases hs : (parse_scheme u).2.headD 0 = 47 ∧ (parse_scheme u).2.tail.headD 0 = 47
  · simp only [host_part, hs, and_self, if_true, Option.some.injEq, Prod.mk.injEq] at h
    obtain ⟨h1, h2⟩ := h
    subst h2
    subst h1
    simp only [ne_uri_parse, parse_hier, h0, if_false, hs, and_self, if_true] at hc
    generalize parse_hostport _ _ = r at hc ⊢
    generalize parse_tail _ = t at hc
    cases r with
    | none => simp at hc
    | some r =>
      obtain ⟨host, port⟩ := r
      cases t with
      | none => simp at hc
      | some t =>
        obtain ⟨path, query, fragment⟩ := t
        simp only [Option.some.injEq] at hc
        subst hc
        exact ⟨host, rfl, rfl⟩
  · simp only [host_part, hs, if_false, reduceCtorEq] at h

theorem host_part_headD {u : List Nat} {x : List Nat × List Nat}
    (h : host_part u = some x) : u.headD 0 ≠ 0 := by
  intro h0
  have hs : parse_scheme u = (none, u) := by
    have : inClass URI_ALPHA 0 = false := by decide
    simp only [parse_scheme, h0, this, Bool.false_eq_true, if_false]
  simp only [host_part, hs, h0] at h
  simp at h

/-! ## The IP-literal check (lines 192-203) -/

theorem hostport_no_bracket {body pa : List Nat} (h : 93 ∉ body) :
    parse_hostport (91 :: body) pa = none := by
  have hd : body.dropWhile (fun c => c != 93) = [] := by
    rw [List.dropWhile_eq_nil_iff]
    intro x hx
    have : x ≠ 93 := fun e => h (e ▸ hx)
    simpa using this
  simp [parse_hostport, hd]

theorem hostport_bad_follow {lit r pa : List Nat} {c : Nat} (h : 93 ∉ lit) (hc : c ≠ 58) :
    parse_hostport (91 :: (lit ++ 93 :: c :: r)) pa = none := by
  have h1 : ∀ a ∈ lit, (fun c => c != 93) a = true := by
    intro x hx
    have : x ≠ 93 := fun e => h (e ▸ hx)
    simpa using this
  have hd : (lit ++ 93 :: c :: r).dropWhile (fun c => c != 93) = 93 :: c :: r :=
    dropWhile_app h1 (by simp)
  simp [parse_hostport, hd, hc]

theorem hostport_bracket_ok {lit r : List Nat} (pa : List Nat) (h : 93 ∉ lit)
    (hr : r = [] ∨ r.head? = some 58) :
    parse_hostport (91 :: (lit ++ 93 :: r)) pa =
      some (91 :: (lit ++ [93]),
        if r.length ≠ 1 then to_unsigned (atoi ((r ++ pa).drop 1)) else 0) := by
  have h1 : ∀ a ∈ lit, (fun c => c != 93) a = true := by
    intro x hx
    have : x ≠ 93 := fun e => h (e ▸ hx)
    simpa using this
  have hd : (lit ++ 93 :: r).dropWhile (fun c => c != 93) = 93 :: r :=
    dropWhile_app h1 (by simp)
  have ht : (lit ++ 93 :: r).takeWhile (fun c => c != 93) = lit :=
    takeWhile_app h1 (by simp)
  have hcond : ¬ ((93 :: r : List Nat) = [] ∨ (r ≠ [] ∧ r.headD 0 ≠ 58)) := by
    rcases hr with hr | hr
    · simp [hr]
    · cases r with
      | nil => simp
      | cons a as => simp at hr; simp [hr]
  simp only [parse_hostport, List.cons_append, List.headD_cons, if_true, List.tail_cons, hd, ht,
    hcond, if_false]

/-! ## Character class facts -/

set_option maxRecDepth 100000 in
theorem uri_chars_length : uri_chars.length = 256 := by decide

theorem lookup_ge {c : Nat} (h : 256 ≤ c) : uri_lookup c = 0 := by
  unfold uri_lookup
  rw [List.getD_eq_default]
  rw [uri_chars_length]
  exact h

theorem inClass_ge {m c : Nat} (h : 256 ≤ c) : inClass m c = false := by
  simp [inClass, lookup_ge h]

theorem inClass_lt {m c : Nat} (h : inClass m c = true) : c < 256 := by
  by_contra hc
  rw [inClass_ge (by omega)] at h
  cases h

set_option maxRecDepth 100000 in
theorem inClass_alpha_lt : ∀ c < 256, inClass URI_ALPHA c = is_alpha c := by decide

set_option maxRecDepth 100000 in
theorem inClass_scheme_lt : ∀ c < 256, inClass URI_SCHEME c = is_scheme_char c := by decide

theorem inClass_alpha (c : Nat) : inClass URI_ALPHA c = is_alpha c := by
  by_cases h : c < 256
  · exact inClass_alpha_lt c h
  · rw [inClass_ge (by omega)]
    simp [is_alpha]
    omega

theorem inClass_scheme (c : Nat) : inClass URI_SCHEME c = is_scheme_char c := by
  by_cases h : c < 256
  · exact inClass_scheme_lt c h
  · rw [inClass_ge (by omega)]
    simp [is_scheme_char, is_alpha, isdigit]
    omega

theorem alpha_scheme {c : Nat} (h : is_alpha c = true) : is_scheme_char c = true := by
  simp [is_scheme_char, h]

/-! ## The scheme (lines 158-168) -/

theorem parse_hier_scheme {s : List Nat} {c : ne_uri} (h : parse_hier s = some c) :
    c.scheme = none := by
  unfold parse_hier at h
  by_cases hs : s.headD 0 = 47 ∧ s.tail.headD 0 = 47
  · simp only [hs, and_self, if_true] at h
    generalize parse_hostport _ _ = r at h
    generalize parse_tail _ = t at h
    cases r with
    | none => cases h
    | some r =>
      obtain ⟨host, port⟩ := r
      cases t with
      | none => cases h
      | some t =>
        obtain ⟨path, query, fragment⟩ := t
        simp only [Option.some.injEq] at h
        subst h
        rfl
  · simp only [hs, if_false] at h
    generalize parse_tail _ = t at h
    cases t with
    | none => cases h
    | some t =>
      obtain ⟨path, query, fragment⟩ := t
      simp only [Option.some.injEq] at h
      subst h
      rfl

theorem parse_scheme_found {run : List Nat} (rest : List Nat) {a : Nat}
    (ha : run.head? = some a)
    (hal : is_alpha a = true) (hrun : ∀ c ∈ run, is_scheme_char c = true) :
    parse_scheme (run ++ 58 :: rest) = (some run, rest) := by
  cases run with
  | nil => simp at ha
  | cons b bs =>
    simp only [List.head?_cons, Option.some.injEq] at ha
    subst ha
    have h1 : ∀ c ∈ b :: bs, inClass URI_SCHEME c = true := fun c hc => by
      rw [inClass_scheme]; exact hrun c hc
    have h2 : ∀ c, (58 :: rest).head? = some c → inClass URI_SCHEME c = false := by
      intro c hc
      simp only [List.head?_cons, Option.some.injEq] at hc
      subst hc
      decide
    have ht : (b :: bs ++ 58 :: rest).takeWhile (inClass URI_SCHEME) = b :: bs :=
      takeWhile_app h1 h2
    have hd : (b :: bs ++ 58 :: rest).dropWhile (inClass URI_SCHEME) = 58 :: rest :=
      dropWhile_app h1 h2
    unfold parse_scheme
    rw [ht, hd]
    simp [inClass_alpha, hal]

theorem parse_scheme_absent {u : List Nat}
    (h : ¬ ∃ run rest a, run.head? = some a ∧ is_alpha a = true ∧
      (∀ c ∈ run, is_scheme_char c = true) ∧ u = run ++ 58 :: rest) :
    parse_scheme u = (none, u) := by
  unfold parse_scheme
  by_cases hal : inClass URI_ALPHA (u.headD 0) = true
  · by_cases hc : (u.dropWhile (inClass URI_SCHEME)).headD 0 = 58
    · exfalso
      apply h
      cases u with
      | nil => simp at hc
      | cons a as =>
        simp only [List.headD_cons] at hal
        rw [inClass_alpha] at hal
        have hsa : inClass URI_SCHEME a = true := by
          rw [inClass_scheme]; exact alpha_scheme hal
        refine ⟨(a :: as).takeWhile (inClass URI_SCHEME),
          ((a :: as).dropWhile (inClass URI_SCHEME)).tail, a, ?_, hal, ?_, ?_⟩
        · simp [List.takeWhile_cons, hsa]
        · intro c hc'
          have := List.mem_takeWhile_imp hc'
          rw [inClass_scheme] at this
          exact this
        · have hne : (a :: as).dropWhile (inClass URI_SCHEME) =
              58 :: ((a :: as).dropWhile (inClass URI_SCHEME)).tail := by
            generalize (a :: as).dropWhile (inClass URI_SCHEME) = d at hc
            cases d with
            | nil => simp at hc
            | cons x xs => simp at hc; simp [hc]
          rw [← hne, List.takeWhile_append_dropWhile]
    · simp only [hal, hc, if_true, if_false]
  · simp only [hal, Bool.false_eq_true, if_false]

/-! ## Library facts: comparison and decimal numerals -/

theorem strcmp_eq_zero {a b : List Nat} (ha : 0 ∉ a) (hb : 0 ∉ b) :
    strcmp a b = 0 ↔ a = b := by
  induction a generalizing b with
  | nil =>
    cases b with
    | nil => simp [strcmp]
    | cons y ys =>
      have : y ≠ 0 := fun e => hb (by simp [e])
      simp [strcmp, this]
  | cons x xs ih =>
    have hx : x ≠ 0 := fun e => ha (by simp [e])
    cases b with
    | nil => simp [strcmp, hx]
    | cons y ys =>
      have hxs : 0 ∉ xs := fun h => ha (List.mem_cons_of_mem _ h)
      have hys : 0 ∉ ys := fun h => hb (List.mem_cons_of_mem _ h)
      by_cases hxy : x = y
      · subst hxy
        simp [strcmp, ih hxs hys]
      · simp only [strcmp, hxy, if_false, List.cons.injEq, false_and, iff_false]
        omega

theorem tolower_ne_zero {c : Nat} (h : c ≠ 0) : tolower c ≠ 0 := by
  unfold tolower
  split <;> omega

theorem strcasecmp_eq_zero {a b : List Nat} (ha : 0 ∉ a) (hb : 0 ∉ b) :
    strcasecmp a b = 0 ↔ a.map tolower = b.map tolower := by
  unfold strcasecmp
  apply strcmp_eq_zero
  · intro h
    obtain ⟨x, hx, hx0⟩ := List.mem_map.1 h
    exact tolower_ne_zero (fun e => ha (e ▸ hx)) hx0
  · intro h
    obtain ⟨x, hx, hx0⟩ := List.mem_map.1 h
    exact tolower_ne_zero (fun e => hb (e ▸ hx)) hx0

theorem numeral_step {n : Nat} (h : 0 < n) :
    numeral n = numeral (n / 10) ++ [48 + n % 10] := by
  unfold numeral
  rw [Nat.digits_def' (by norm_num) h]
  simp

theorem numeral_small {n : Nat} (h : 0 < n) (h10 : n < 10) : numeral n = [48 + n] := by
  rw [numeral_step h]
  have h0 : n / 10 = 0 := Nat.div_eq_of_lt h10
  have hm : n % 10 = n := Nat.mod_eq_of_lt h10
  simp [h0, hm, numeral]

theorem decimal_aux_eq (fuel : Nat) : ∀ (n : Nat) (acc : List Nat), n < fuel → 0 < n →
    decimal_aux fuel n acc = numeral n ++ acc := by
  induction fuel with
  | zero => intro n acc h; omega
  | succ k ih =>
    intro n acc h hpos
    unfold decimal_aux
    by_cases h10 : n < 10
    · simp [h10, numeral_small hpos h10]
    · simp only [h10, if_false]
      rw [ih (n / 10) _ (by omega) (by omega), numeral_step hpos]
      simp

theorem decimal_eq_numeral {n : Nat} (h : 0 < n) : decimal n = numeral n := by
  unfold decimal
  rw [decimal_aux_eq (n + 1) n [] (by omega) h]
  simp

/-! ## Facts about the classes used by the scans -/

theorem class_fact {m : Nat} {P : Nat → Prop}
    (h : ∀ c < 256, inClass m c = true → P c) : ∀ c, inClass m c = true → P c :=
  fun c hc => h c (inClass_lt hc) hc

set_option maxRecDepth 100000 in
theorem userinfo_char : ∀ c, inClass URI_USERINFO c = true →
    c ≠ 0 ∧ c ≠ 47 ∧ c ≠ 64 ∧ c ≠ 91 ∧ c ≠ 63 ∧ c ≠ 35 :=
  class_fact (by decide)

set_option maxRecDepth 100000 in
theorem segchar_char : ∀ c, inClass URI_SEGCHAR c = true → c ≠ 0 ∧ c ≠ 63 ∧ c ≠ 35 :=
  class_fact (by decide)

set_option maxRecDepth 100000 in
theorem query_char : ∀ c, inClass URI_QUERY c = true → c ≠ 0 ∧ c ≠ 35 :=
  class_fact (by decide)

theorem digit_userinfo {c : Nat} (h : isdigit c = true) : inClass URI_USERINFO c = true := by
  have hc : 48 ≤ c ∧ c ≤ 57 := by simpa [isdigit] using h
  have : ∀ d < 10, inClass URI_USERINFO (48 + d) = true := by decide
  have h2 := this (c - 48) (by omega)
  have e : 48 + (c - 48) = c := by omega
  rwa [e] at h2

/-! ## `atoi` -/

theorem atoi_digits_append {r : List Nat} (hr : ∀ c, r.head? = some c → isdigit c = false) :
    ∀ (l : List Nat) (acc : Nat), atoi_digits (l ++ r) acc = atoi_digits l acc := by
  intro l
  induction l with
  | nil =>
    intro acc
    cases r with
    | nil => rfl
    | cons c cs => simp [atoi_digits, hr c rfl]
  | cons x xs ih =>
    intro acc
    rw [List.cons_append]
    unfold atoi_digits
    rw [ih]

/-- Text after the number does not change `atoi` when it starts with a byte
that is no digit, no white space and no sign. -/
theorem atoi_append {r : List Nat}
    (hr : ∀ c, r.head? = some c → isdigit c = false ∧ isspace c = false ∧ c ≠ 45 ∧ c ≠ 43)
    (l : List Nat) : atoi (l ++ r) = atoi l := by
  have hd : ∀ c, r.head? = some c → isdigit c = false := fun c hc => (hr c hc).1
  unfold atoi
  rw [List.dropWhile_append]
  by_cases he : (l.dropWhile isspace).isEmpty = true
  · simp only [he, if_true]
    have hnil : l.dropWhile isspace = [] := List.isEmpty_iff.1 he
    rw [hnil]
    cases r with
    | nil => rfl
    | cons c cs =>
      obtain ⟨h1, h2, h3, h4⟩ := hr c rfl
      simp only [List.dropWhile_cons, h2, Bool.false_eq_true, if_false]
      have e : atoi_digits (c :: cs) 0 = 0 := by simp [atoi_digits, h1]
      split
      · rename_i heq; simp only [List.cons.injEq] at heq; exact absurd heq.1 h3
      · rename_i heq; simp only [List.cons.injEq] at heq; exact absurd heq.1 h4
      · rw [e]; rfl
  · simp only [he, Bool.false_eq_true, if_false]
    generalize l.dropWhile isspace = d at he
    cases d with
    | nil => simp at he
    | cons x xs =>
      by_cases h45 : x = 45
      · subst h45; simp only [List.cons_append, atoi_digits_append hd]
      · by_cases h43 : x = 43
        · subst h43; simp only [List.cons_append, atoi_digits_append hd]
        · have e := atoi_digits_append hd (x :: xs) 0
          simp only [List.cons_append] at e ⊢
          split
          · rename_i heq; simp only [List.cons.injEq] at heq; exact absurd heq.1 h45
          · rename_i heq; simp only [List.cons.injEq] at heq; exact absurd heq.1 h43
          · split
            · rename_i heq; simp only [List.cons.injEq] at heq; exact absurd heq.1 h45
            · rename_i heq; simp only [List.cons.injEq] at heq; exact absurd heq.1 h43
            · rw [e]

/-! ## The authority (lines 170-225) -/

/-- The parse from a `//` authority `auth` that is followed by `pa`, the end of
the input or a text that starts with `/`. -/
theorem hier_authority {auth : List Nat} (pa : List Nat) (hauth : ∀ c ∈ auth, c ≠ 47 ∧ c ≠ 0)
    (hpa : pa = [] ∨ pa.head? = some 47) :
    parse_hier (47 :: 47 :: (auth ++ pa)) =
      match parse_hostport (parse_userinfo auth pa).2 pa with
      | none => none
      | some (host, port) =>
        match parse_tail (if pa = [] then [47] else pa) with
        | none => none
        | some (path, query, fragment) =>
          some { scheme := none, host := some host, userinfo := (parse_userinfo auth pa).1,
                 port := port, path := some path, query := query, fragment := fragment } := by
  have h1 : ∀ a ∈ auth, (fun c => c != 47 && c != 0) a = true := by
    intro a ha
    have := hauth a ha
    simp [this.1, this.2]
  have h2 : ∀ a, pa.head? = some a → (fun c => c != 47 && c != 0) a = false := by
    intro a ha
    rcases hpa with hpa | hpa
    · rw [hpa] at ha; cases ha
    · rw [hpa] at ha
      simp only [Option.some.injEq] at ha
      subst ha
      rfl
  have ht : (auth ++ pa).takeWhile (fun c => c != 47 && c != 0) = auth := takeWhile_app h1 h2
  have hd : (auth ++ pa).dropWhile (fun c => c != 47 && c != 0) = pa := dropWhile_app h1 h2
  have hz : (pa.headD 0 = 0) ↔ pa = [] := by
    rcases hpa with hpa | hpa
    · simp [hpa]
    · cases pa with
      | nil => simp
      | cons x xs => simp at hpa; simp [hpa]
  unfold parse_hier
  simp only [List.headD_cons, List.tail_cons, and_self, if_true, List.drop_succ_cons,
    List.drop_zero, ht, hd, hz]

theorem userinfo_found {x : List Nat} (hp pa : List Nat)
    (hx : ∀ c ∈ x, inClass URI_USERINFO c = true) :
    parse_userinfo (x ++ 64 :: hp) pa = (some x, hp) := by
  have h2 : ∀ a, (64 :: hp).head? = some a → inClass URI_USERINFO a = false := by
    intro a ha
    simp only [List.head?_cons, Option.some.injEq] at ha
    subst ha
    decide
  have ht : (x ++ 64 :: hp).takeWhile (inClass URI_USERINFO) = x := takeWhile_app hx h2
  have hd : (x ++ 64 :: hp).dropWhile (inClass URI_USERINFO) = 64 :: hp := dropWhile_app hx h2
  simp only [parse_userinfo, ht, hd, List.cons_append, List.headD_cons, if_true, List.tail_cons]

theorem userinfo_absent {hp pa : List Nat}
    (h : (hp.dropWhile (inClass URI_USERINFO) ++ pa).headD 0 ≠ 64) :
    parse_userinfo hp pa = (none, hp) := by
  simp only [parse_userinfo, h, if_false]

/-! ## Path, query and fragment (lines 228-261) -/

theorem takeWhile_all {p : Nat → Bool} {l : List Nat} (h : ∀ a ∈ l, p a = true) :
    l.takeWhile p = l := by
  have e : (l ++ []).takeWhile p = l := takeWhile_app h (by simp)
  simpa using e

theorem dropWhile_all {p : Nat → Bool} {l : List Nat} (h : ∀ a ∈ l, p a = true) :
    l.dropWhile p = [] := by
  have e : (l ++ []).dropWhile p = [] := dropWhile_app h (by simp)
  simpa using e

theorem parse_tail_text {path : List Nat} {q f : Option (List Nat)}
    (hpath : ∀ c ∈ path, inClass URI_SEGCHAR c = true)
    (hq : ∀ x, q = some x → ∀ c ∈ x, inClass URI_QUERY c = true)
    (hf : ∀ x, f = some x → ∀ c ∈ x, inClass URI_QUERY c = true) :
    parse_tail (path ++ (query_text q ++ fragment_text f)) = some (path, q, f) := by
  have n63 : inClass URI_SEGCHAR 63 = false := by decide
  have n35 : inClass URI_SEGCHAR 35 = false := by decide
  have q35 : inClass URI_QUERY 35 = false := by decide
  cases q with
  | none =>
    cases f with
    | none =>
      simp only [query_text, fragment_text, List.append_nil, parse_tail, takeWhile_all hpath,
        dropWhile_all hpath, List.headD_nil, if_true]
    | some y =>
      have hy := hf y rfl
      have h2 : ∀ a, (35 :: y).head? = some a → inClass URI_SEGCHAR a = false := by
        intro a ha
        simp only [List.head?_cons, Option.some.injEq] at ha
        subst ha; exact n35
      have ht : (path ++ 35 :: y).takeWhile (inClass URI_SEGCHAR) = path :=
        takeWhile_app hpath h2
      have hd : (path ++ 35 :: y).dropWhile (inClass URI_SEGCHAR) = 35 :: y :=
        dropWhile_app hpath h2
      simp [query_text, fragment_text, parse_tail, ht, hd, takeWhile_all hy]
  | some x =>
    have hx := hq x rfl
    cases f with
    | none =>
      have h2 : ∀ a, (63 :: x).head? = some a → inClass URI_SEGCHAR a = false := by
        intro a ha
        simp only [List.head?_cons, Option.some.injEq] at ha
        subst ha; exact n63
      have ht : (path ++ 63 :: x).takeWhile (inClass URI_SEGCHAR) = path :=
        takeWhile_app hpath h2
      have hd : (path ++ 63 :: x).dropWhile (inClass URI_SEGCHAR) = 63 :: x :=
        dropWhile_app hpath h2
      simp [query_text, fragment_text, parse_tail, ht, hd, takeWhile_all hx, dropWhile_all hx]
    | some y =>
      have hy := hf y rfl
      have h2 : ∀ a, (63 :: (x ++ 35 :: y)).head? = some a → inClass URI_SEGCHAR a = false := by
        intro a ha
        simp only [List.head?_cons, Option.some.injEq] at ha
        subst ha; exact n63
      have ht : (path ++ 63 :: (x ++ 35 :: y)).takeWhile (inClass URI_SEGCHAR) = path :=
        takeWhile_app hpath h2
      have hd : (path ++ 63 :: (x ++ 35 :: y)).dropWhile (inClass URI_SEGCHAR)
          = 63 :: (x ++ 35 :: y) := dropWhile_app hpath h2
      have h3 : ∀ a, (35 :: y).head? = some a → inClass URI_QUERY a = false := by
        intro a ha
        simp only [List.head?_cons, Option.some.injEq] at ha
        subst ha; exact q35
      have ht2 : (x ++ 35 :: y).takeWhile (inClass URI_QUERY) = x := takeWhile_app hx h3
      have hd2 : (x ++ 35 :: y).dropWhile (inClass URI_QUERY) = 35 :: y := dropWhile_app hx h3
      simp [query_text, fragment_text, parse_tail, ht, hd, ht2, hd2, takeWhile_all hy]

/-! ## Host and port (lines 204-218) -/

theorem find_colon_none {mem : List Nat} : ∀ n : Nat,
    (∀ i, 1 ≤ i → i ≤ n → mem.getD i 0 ≠ 58) → find_colon mem n = 0 := by
  intro n
  induction n with
  | zero => intro _; rfl
  | succ k ih =>
    intro h
    unfold find_colon
    simp only [h (k + 1) (by omega) (by omega), ne_eq, not_false_eq_true, if_true]
    exact ih (fun i h1 h2 => h i h1 (by omega))

theorem find_colon_last {mem : List Nat} {k : Nat} (hk : 1 ≤ k) (hc : mem.getD k 0 = 58) :
    ∀ n : Nat, k ≤ n → (∀ i, k < i → i ≤ n → mem.getD i 0 ≠ 58) → find_colon mem n = k := by
  intro n
  induction n with
  | zero => intro h; omega
  | succ m ih =>
    intro hkn h
    unfold find_colon
    by_cases e : k = m + 1
    · subst e
      simp only [hc, ne_eq, not_true_eq_false, if_false]
    · simp only [h (m + 1) (by omega) (by omega), ne_eq, not_false_eq_true, if_true]
      exact ih (by omega) (fun i h1 h2 => h i h1 (by omega))

theorem find_colon_congr {m1 m2 : List Nat} : ∀ n : Nat,
    (∀ i, 1 ≤ i → i ≤ n → (m1.getD i 0 = 58 ↔ m2.getD i 0 = 58)) →
    find_colon m1 n = find_colon m2 n := by
  intro n
  induction n with
  | zero => intro _; rfl
  | succ k ih =>
    intro h
    unfold find_colon
    have hk := h (k + 1) (by omega) (by omega)
    by_cases e : m1.getD (k + 1) 0 = 58
    · simp only [e, hk.1 e, ne_eq, not_true_eq_false, if_false]
    · have e2 : ¬ m2.getD (k + 1) 0 = 58 := fun x => e (hk.2 x)
      simp only [ne_eq, e, e2, not_false_eq_true, if_true]
      exact ih (fun i h1 h2 => h i h1 (by omega))

theorem find_colon_le (mem : List Nat) : ∀ n : Nat, find_colon mem n ≤ n := by
  intro n
  induction n with
  | zero => exact Nat.le_refl _
  | succ k ih =>
    unfold find_colon
    split
    · exact Nat.le_succ_of_le ih
    · exact Nat.le_refl _

theorem find_colon_spec (mem : List Nat) : ∀ n : Nat,
    find_colon mem n = 0 ∨ mem.getD (find_colon mem n) 0 = 58 := by
  intro n
  induction n with
  | zero => left; rfl
  | succ k ih =>
    unfold find_colon
    by_cases e : mem.getD (k + 1) 0 = 58
    · right; simp only [e, ne_eq, not_true_eq_false, if_false]
    · simp only [ne_eq, e, not_false_eq_true, if_true]; exact ih

theorem getD_append_left {l r : List Nat} {i : Nat} (h : i < l.length) :
    (l ++ r).getD i 0 = l.getD i 0 := by
  simp [List.getD_eq_getElem?_getD, List.getElem?_append_left h]

theorem getD_append_length (l r : List Nat) : (l ++ r).getD l.length 0 = r.headD 0 := by
  cases r with
  | nil => simp [List.getD_eq_getElem?_getD]
  | cons x xs =>
    simp only [List.getD_eq_getElem?_getD, List.headD_cons]
    rw [List.getElem?_append_right (Nat.le_refl _)]
    simp

/-- The host scan does not depend on whether the authority ends the input or
is followed by a single `/`. -/
theorem hostport_slash (hp : List Nat) : parse_hostport hp [47] = parse_hostport hp [] := by
  have hsl : ∀ c, ([47] : List Nat).head? = some c →
      isdigit c = false ∧ isspace c = false ∧ c ≠ 45 ∧ c ≠ 43 := by
    intro c hc
    simp only [List.head?_cons, Option.some.injEq] at hc
    subst hc
    decide
  have hhead : ((hp ++ [47]).headD 0 = 91) ↔ ((hp ++ []).headD 0 = 91) := by
    cases hp with
    | nil => simp
    | cons x xs => simp
  unfold parse_hostport
  by_cases hb : (hp ++ []).headD 0 = 91
  · simp only [hb, hhead.2 hb, if_true]
    generalize hp.tail.dropWhile (fun c => c != 93) = p
    by_cases hc : p = [] ∨ (p.tail ≠ [] ∧ p.tail.headD 0 ≠ 58)
    · simp only [hc, if_true]
    · simp only [hc, if_false, Option.some.injEq, Prod.mk.injEq, true_and]
      by_cases hl : p.tail.length = 1
      · simp [hl]
      · simp only [ne_eq, hl, not_false_eq_true, if_true]
        cases hq : p.tail with
        | nil => rfl
        | cons y ys =>
          simp only [List.cons_append, List.drop_succ_cons, List.drop_zero, List.append_nil]
          rw [atoi_append hsl]
  · have hb' : ¬ (hp ++ [47]).headD 0 = 91 := fun h => hb (hhead.1 h)
    simp only [hb, hb', if_false]
    have hfc : find_colon (hp ++ [47]) hp.length = find_colon (hp ++ []) hp.length := by
      apply find_colon_congr
      intro i h1 h2
      by_cases hi : i < hp.length
      · rw [getD_append_left hi, getD_append_left hi]
      · have e : i = hp.length := by omega
        subst e
        rw [getD_append_length, getD_append_length]
        simp
    rw [hfc]
    generalize hi : find_colon (hp ++ []) hp.length = i
    by_cases h0 : i = 0
    · simp only [h0, if_true]
    · simp only [h0, if_false, Option.some.injEq, Prod.mk.injEq, true_and]
      by_cases hl : i + 1 = hp.length
      · simp [hl]
      · simp only [ne_eq, hl, not_false_eq_true, if_true]
        have hle : i ≤ hp.length := hi ▸ find_colon_le _ _
        have hne : i ≠ hp.length := by
          intro e
          have hs := find_colon_spec (hp ++ []) hp.length
          rw [hi] at hs
          rcases hs with hs | hs
          · exact h0 hs
          · rw [e, getD_append_length] at hs
            simp at hs
        have hdrop : ∀ r : List Nat, (hp ++ r).drop (i + 1) = hp.drop (i + 1) ++ r := by
          intro r
          rw [List.drop_append_of_le_length (by omega)]
        rw [hdrop, hdrop, List.append_nil, atoi_append hsl]

theorem userinfo_slash (auth : List Nat) : parse_userinfo auth [47] = parse_userinfo auth [] := by
  unfold parse_userinfo
  generalize auth.dropWhile (inClass URI_USERINFO) = p
  cases p with
  | nil => simp
  | cons x xs => simp

theorem strcmp_self (a : List Nat) : strcmp a a = 0 := by
  induction a with
  | nil => rfl
  | cons x xs ih => simp [strcmp, ih]

/-! ## The whole parse in terms of its parts -/

theorem parse_of_scheme {u s : List Nat} {sch : Option (List Nat)} (h0 : u.headD 0 ≠ 0)
    (hs : parse_scheme u = (sch, s)) :
    ne_uri_parse u = (parse_hier s).map (fun c => { c with scheme := sch }) := by
  simp only [ne_uri_parse, h0, if_false, hs]
  cases parse_hier s <;> rfl

/-- The parse of an input made of an optional scheme and a text that starts
with `//`. -/
theorem parse_with_lead {sch : Option (List Nat)} (rest : List Nat)
    (hsch : ∀ run, sch = some run → is_scheme run) :
    ne_uri_parse (scheme_lead sch ++ 47 :: 47 :: rest) =
      (parse_hier (47 :: 47 :: rest)).map (fun c => { c with scheme := sch }) := by
  cases sch with
  | none =>
    apply parse_of_scheme
    · simp [scheme_lead]
    · have : inClass URI_ALPHA 47 = false := by decide
      simp only [scheme_lead, List.nil_append, parse_scheme, List.headD_cons, this,
        Bool.false_eq_true, if_false]
  | some run =>
    obtain ⟨⟨a, ha, hal⟩, hrun⟩ := hsch run rfl
    have hps := parse_scheme_found (47 :: 47 :: rest) ha hal hrun
    have e : scheme_lead (some run) ++ 47 :: 47 :: rest = run ++ 58 :: 47 :: 47 :: rest := by
      simp [scheme_lead]
    rw [e]
    apply parse_of_scheme _ hps
    cases run with
    | nil => simp at ha
    | cons b bs =>
      simp only [List.head?_cons, Option.some.injEq] at ha
      subst ha
      simp only [List.cons_append, List.headD_cons]
      intro hb
      rw [hb] at hal
      exact absurd hal (by decide)

theorem parse_tail_slash : parse_tail [47] = some ([47], none, none) := by decide

theorem hier_slash {rest : List Nat} (hs : 47 ∉ rest) (hz : 0 ∉ rest) :
    parse_hier (47 :: 47 :: (rest ++ [47])) = parse_hier (47 :: 47 :: rest) ∧
    ∀ c, parse_hier (47 :: 47 :: rest) = some c →
      c.path = some [47] ∧ c.query = none ∧ c.fragment = none ∧ c.host ≠ none := by
  have hauth : ∀ c ∈ rest, c ≠ 47 ∧ c ≠ 0 :=
    fun c hc => ⟨fun e => hs (e ▸ hc), fun e => hz (e ▸ hc)⟩
  have h1 := hier_authority [47] hauth (Or.inr rfl)
  have h2 := hier_authority [] hauth (Or.inl rfl)
  rw [List.append_nil] at h2
  rw [h1, h2, userinfo_slash, hostport_slash]
  simp only [if_true, List.cons_ne_nil, if_false, parse_tail_slash, true_and]
  intro c
  generalize parse_hostport _ _ = r
  cases r with
  | none => intro h; cases h
  | some r =>
    obtain ⟨host, port⟩ := r
    intro h
    simp only [Option.some.injEq] at h
    subst h
    simp

/-! ## Parsing the text of an absolute URI -/

theorem unparse_text {c : ne_uri} {scheme host path : List Nat} (hs : c.scheme = some scheme)
    (hh : c.host = some host) (hp : c.path = some path) :
    ne_uri_unparse c =
      some (uri_text scheme c.userinfo (host ++ port_text scheme c.port) path c.query
        c.fragment) := by
  simp only [ne_uri_unparse, hs, hh, hp, uri_text, scheme_lead, port_text, userinfo_text,
    query_text, fragment_text]
  cases c.userinfo <;> cases c.query <;> cases c.fragment <;> simp

/-- The parse of the text of an absolute URI whose authority is followed by the
path or ends the input: the scheme, userinfo, path, query and fragment are the
ones written, host and port come from the host scan. -/
theorem parse_uri_text {scheme hostport path : List Nat} {ui q f : Option (List Nat)}
    (hsch : is_scheme scheme)
    (hui : ∀ x, ui = some x → ∀ c ∈ x, inClass URI_USERINFO c = true)
    (hhp : ∀ c ∈ hostport, c ≠ 47 ∧ c ≠ 0 ∧ c ≠ 64)
    (hpath : ∀ c ∈ path, inClass URI_SEGCHAR c = true)
    (hpath0 : path = [] → q = none ∧ f = none)
    (hpath1 : path ≠ [] → path.head? = some 47)
    (hq : ∀ x, q = some x → ∀ c ∈ x, inClass URI_QUERY c = true)
    (hf : ∀ x, f = some x → ∀ c ∈ x, inClass URI_QUERY c = true) :
    ne_uri_parse (uri_text scheme ui hostport path q f) =
      (parse_hostport hostport (path ++ (query_text q ++ fragment_text f))).map
        (fun r => { scheme := some scheme, host := some r.1, userinfo := ui, port := r.2,
                    path := some (if path = [] then [47] else path),
                    query := q, fragment := f }) := by
  have hpa : path ++ (query_text q ++ fragment_text f) = [] ∨
      (path ++ (query_text q ++ fragment_text f)).head? = some 47 := by
    by_cases hp : path = []
    · obtain ⟨h1, h2⟩ := hpath0 hp
      left
      simp [hp, h1, h2, query_text, fragment_text]
    · right
      have := hpath1 hp
      cases path with
      | nil => exact absurd rfl hp
      | cons x xs => simpa using this
  have hauth : ∀ c ∈ userinfo_text ui ++ hostport, c ≠ 47 ∧ c ≠ 0 := by
    intro c hc
    rcases List.mem_append.1 hc with h | h
    · cases ui with
      | none => simp [userinfo_text] at h
      | some x =>
        simp only [userinfo_text, List.mem_append, List.mem_singleton] at h
        rcases h with h | h
        · have := userinfo_char c (hui x rfl c h)
          exact ⟨this.2.1, this.1⟩
        · subst h; decide
    · exact ⟨(hhp c h).1, (hhp c h).2.1⟩
  have hu : parse_userinfo (userinfo_text ui ++ hostport)
      (path ++ (query_text q ++ fragment_text f)) = (ui, hostport) := by
    cases ui with
    | none =>
      simp only [userinfo_text, List.nil_append]
      apply userinfo_absent
      generalize hd : hostport.dropWhile (inClass URI_USERINFO) = d
      cases d with
      | nil =>
        rcases hpa with h | h
        · rw [h]; simp
        · generalize path ++ (query_text q ++ fragment_text f) = pa at h
          cases pa with
          | nil => simp
          | cons y ys => simp at h; simp [h]
      | cons y ys =>
        have hy : y ∈ hostport := by
          have : y ∈ hostport.dropWhile (inClass URI_USERINFO) := by rw [hd]; simp
          exact (List.dropWhile_sublist _).subset this
        simpa using (hhp y hy).2.2
    | some x =>
      have e : userinfo_text (some x) ++ hostport = x ++ 64 :: hostport := by
        simp [userinfo_text]
      rw [e]
      exact userinfo_found _ _ (hui x rfl)
  have hpt : parse_tail (if path ++ (query_text q ++ fragment_text f) = [] then [47]
      else path ++ (query_text q ++ fragment_text f)) =
      some (if path = [] then [47] else path, q, f) := by
    by_cases hp : path = []
    · obtain ⟨h1, h2⟩ := hpath0 hp
      subst hp; subst h1; subst h2
      simp only [query_text, fragment_text, List.append_nil, if_true, parse_tail_slash]
    · have hne : path ++ (query_text q ++ fragment_text f) ≠ [] := by
        simp [hp]
      simp only [hne, hp, if_false]
      exact parse_tail_text hpath hq hf
  unfold uri_text
  rw [parse_with_lead _ (fun run h => by cases h; exact hsch), hier_authority _ hauth hpa, hu,
    hpt]
  generalize parse_hostport _ _ = r
  cases r with
  | none => rfl
  | some r => obtain ⟨host, port⟩ := r; rfl

/-! ## Host scan of a registered name with an optional port -/

theorem getD_of_mem_ne {l r : List Nat} {v i : Nat} (hl : ∀ c ∈ l, c ≠ v)
    (hr : r.headD 0 ≠ v) (hi : i ≤ l.length) : (l ++ r).getD i 0 ≠ v := by
  by_cases h : i < l.length
  · rw [getD_append_left h, List.getD_eq_getElem?_getD, List.getElem?_eq_getElem h]
    exact hl _ (List.getElem_mem h)
  · have e : i = l.length := by omega
    subst e
    rw [getD_append_length]
    exact hr

/-- No colon after the first byte of the host part: the host is the whole
host part and the port is 0. -/
theorem hostport_plain {h pa : List Nat} (hb : h.headD 0 ≠ 91) (hc : ∀ c ∈ h.tail, c ≠ 58)
    (hpa : pa = [] ∨ pa.head? = some 47) : parse_hostport h pa = some (h, 0) := by
  have hpah : pa.headD 0 = 0 ∨ pa.headD 0 = 47 := by
    rcases hpa with e | e
    · left; simp [e]
    · right
      cases pa with
      | nil => simp at e
      | cons y ys => simpa using e
  have hhead : (h ++ pa).headD 0 ≠ 91 := by
    cases h with
    | nil => rcases hpah with e | e <;> (rw [List.nil_append, e]; decide)
    | cons x xs => simpa using hb
  have hfc : find_colon (h ++ pa) h.length = 0 := by
    apply find_colon_none
    intro i h1 h2
    cases h with
    | nil => simp at h2; omega
    | cons x xs =>
      obtain ⟨k, rfl⟩ : ∃ k, i = k + 1 := ⟨i - 1, by omega⟩
      have hk : k ≤ xs.length := by simpa using h2
      have := getD_of_mem_ne (l := xs) (r := pa) (v := 58) (i := k) hc
        (by rcases hpah with e | e <;> (rw [e]; decide)) hk
      simpa [List.getD_eq_getElem?_getD] using this
  simp only [parse_hostport, hhead, if_false, hfc, if_true]

/-- A non-empty host without colon, then `:` and a text without colon: the
host is the text before the colon, the port is read from the text after it. -/
theorem hostport_port {h d pa : List Nat} (hne : h ≠ []) (hb : h.headD 0 ≠ 91)
    (hc : ∀ c ∈ d, c ≠ 58) (hpa : pa = [] ∨ pa.head? = some 47) :
    parse_hostport (h ++ 58 :: d) pa =
      some (h, if d = [] then 0 else to_unsigned (atoi (d ++ pa))) := by
  have hpah : pa.headD 0 ≠ 58 := by
    rcases hpa with e | e
    · simp [e]
    · cases pa with
      | nil => simp at e
      | cons y ys => simp at e; simp [e]
  have hhead : ((h ++ 58 :: d) ++ pa).headD 0 ≠ 91 := by
    cases h with
    | nil => exact absurd rfl hne
    | cons x xs => simpa using hb
  have hlen : 1 ≤ h.length := by
    cases h with
    | nil => exact absurd rfl hne
    | cons x xs => simp
  have hfc : find_colon ((h ++ 58 :: d) ++ pa) (h ++ 58 :: d).length = h.length := by
    apply find_colon_last hlen
    · rw [List.append_assoc, getD_append_length]
      rfl
    · simp
    · intro i h1 h2
      obtain ⟨k, rfl⟩ : ∃ k, i = h.length + 1 + k := ⟨i - (h.length + 1), by omega⟩
      have hk : k ≤ d.length := by simp at h2; omega
      have := getD_of_mem_ne (l := d) (r := pa) (v := 58) (i := k) hc hpah hk
      have e : (h ++ 58 :: d) ++ pa = (h ++ [58]) ++ (d ++ pa) := by simp
      rw [e, List.getD_eq_getElem?_getD, List.getElem?_append_right (by simp)]
      simpa [List.getD_eq_getElem?_getD] using this
  have h0 : h.length ≠ 0 := by omega
  have hdrop : ((h ++ 58 :: d) ++ pa).drop (h.length + 1) = d ++ pa := by
    have e : (h ++ 58 :: d) ++ pa = (h ++ [58]) ++ (d ++ pa) := by simp
    rw [e, List.drop_append_of_le_length (by simp)]
    simp
  have hcond : (h.length + 1 ≠ (h ++ 58 :: d).length) ↔ ¬ d = [] := by
    cases d with
    | nil => simp
    | cons y ys => simp
  simp only [parse_hostport, hhead, if_false, hfc, h0, hdrop, hcond, List.take_left']
  by_cases hd : d = []
  · simp [hd]
  · simp [hd]

/-! ## The port numeral read back -/

theorem numeral_digits (n : Nat) : ∀ c ∈ numeral n, isdigit c = true := by
  intro c hc
  simp only [numeral, List.mem_map, List.mem_reverse] at hc
  obtain ⟨d, hd, rfl⟩ := hc
  have := Nat.digits_lt_base (by norm_num : 1 < 10) hd
  simp [isdigit]
  omega

theorem atoi_digits_fold {l : List Nat} (hl : ∀ c ∈ l, isdigit c = true) :
    ∀ (r : List Nat) (acc : Nat),
      atoi_digits (l ++ r) acc = atoi_digits r (atoi_digits l acc) := by
  induction l with
  | nil => intro r acc; rfl
  | cons x xs ih =>
    intro r acc
    have hx : isdigit x = true := hl x (by simp)
    rw [List.cons_append]
    simp only [atoi_digits, hx, if_true]
    exact ih (fun c hc => hl c (List.mem_cons_of_mem _ hc)) r _

theorem atoi_digits_numeral : ∀ n : Nat, atoi_digits (numeral n) 0 = n := by
  intro n
  induction n using Nat.strong_induction_on with
  | _ n ih =>
    by_cases h0 : n = 0
    · subst h0; simp [numeral, atoi_digits]
    · have hpos : 0 < n := Nat.pos_of_ne_zero h0
      rw [numeral_step hpos, atoi_digits_fold (numeral_digits _), ih (n / 10) (by omega)]
      have hd : isdigit (48 + n % 10) = true := by simp [isdigit]; omega
      simp only [atoi_digits, hd, if_true]
      omega

theorem decimal_digits (n : Nat) : ∀ c ∈ decimal n, isdigit c = true := by
  by_cases h0 : n = 0
  · subst h0; decide
  · rw [decimal_eq_numeral (Nat.pos_of_ne_zero h0)]; exact numeral_digits n

theorem atoi_digits_decimal (n : Nat) : atoi_digits (decimal n) 0 = n := by
  by_cases h0 : n = 0
  · subst h0; decide
  · rw [decimal_eq_numeral (Nat.pos_of_ne_zero h0)]; exact atoi_digits_numeral n

theorem decimal_ne_nil (n : Nat) : decimal n ≠ [] := by
  unfold decimal decimal_aux
  split <;> simp
  · intro h
    have := decimal_aux_eq n (n / 10) [48 + n % 10] (by omega) (by omega)
    rw [h] at this
    simp at this

/-- `atoi` of a text that starts with a digit. -/
theorem atoi_of_digit {c : Nat} {cs : List Nat} (hc : isdigit c = true) :
    atoi (c :: cs) = (atoi_digits (c :: cs) 0 : Int) := by
  have hr : 48 ≤ c ∧ c ≤ 57 := by simpa [isdigit] using hc
  have hsp : isspace c = false := by
    simp [isspace]; omega
  unfold atoi
  simp only [List.dropWhile_cons, hsp, Bool.false_eq_true, if_false]
  split
  · rename_i heq; simp only [List.cons.injEq] at heq; omega
  · rename_i heq; simp only [List.cons.injEq] at heq; omega
  · rfl

theorem atoi_decimal (n : Nat) : atoi (decimal n) = (n : Int) := by
  have hne := decimal_ne_nil n
  have hd := decimal_digits n
  have hv := atoi_digits_decimal n
  generalize decimal n = l at hne hd hv
  cases l with
  | nil => exact absurd rfl hne
  | cons c cs => rw [atoi_of_digit (hd c (by simp)), hv]

theorem atoi_fmt_d {p : Nat} (hp : p < 4294967296) : to_unsigned (atoi (fmt_d p)) = p := by
  unfold fmt_d
  by_cases h : p < 2147483648
  · simp only [h, if_true, atoi_decimal, to_unsigned]
    omega
  · simp only [h, if_false]
    have e : atoi (45 :: decimal (4294967296 - p)) = - ((4294967296 - p : Nat) : Int) := by
      unfold atoi
      have hsp : isspace 45 = false := by decide
      simp only [List.dropWhile_cons, hsp, Bool.false_eq_true, if_false, atoi_digits_decimal]
    rw [e]
    unfold to_unsigned
    omega

theorem fmt_d_chars (p : Nat) : ∀ c ∈ fmt_d p,
    inClass URI_USERINFO c = true ∧ c ≠ 58 := by
  have hdig : ∀ c, isdigit c = true → inClass URI_USERINFO c = true ∧ c ≠ 58 := by
    intro c hc
    refine ⟨digit_userinfo hc, ?_⟩
    have : 48 ≤ c ∧ c ≤ 57 := by simpa [isdigit] using hc
    omega
  intro c hc
  unfold fmt_d at hc
  split at hc
  · exact hdig c (decimal_digits _ c hc)
  · rcases List.mem_cons.1 hc with e | e
    · subst e; decide
    · exact hdig c (decimal_digits _ c e)

theorem fmt_d_ne_nil (p : Nat) : fmt_d p ≠ [] := by
  unfold fmt_d
  split
  · exact decimal_ne_nil p
  · simp

/-! ## Parsing what `ne_uri_unparse` writes -/

/-- The parse of the text written for scheme, userinfo, host `h`, port `p`,
path, query and fragment, when `h` has no colon after its first byte and is
not empty and without colon if `p` is not 0. -/
theorem reparse {scheme h path : List Nat} {ui q f : Option (List Nat)} {p : Nat}
    (hsch : is_scheme scheme)
    (hui : ∀ x, ui = some x → ∀ c ∈ x, inClass URI_USERINFO c = true)
    (hh : ∀ c ∈ h, inClass URI_USERINFO c = true)
    (htail : ∀ c ∈ h.tail, c ≠ 58)
    (hp : p = 0 ∨ (h ≠ [] ∧ ∀ c ∈ h, c ≠ 58))
    (hp32 : p < 4294967296)
    (hpath : ∀ c ∈ path, inClass URI_SEGCHAR c = true)
    (hpath1 : path.head? = some 47)
    (hq : ∀ x, q = some x → ∀ c ∈ x, inClass URI_QUERY c = true)
    (hf : ∀ x, f = some x → ∀ c ∈ x, inClass URI_QUERY c = true) :
    ne_uri_parse (uri_text scheme ui (h ++ port_text scheme p) path q f) =
      some { scheme := some scheme, host := some h, userinfo := ui,
             port := if ne_uri_defaultport scheme = p then 0 else p,
             path := some path, query := q, fragment := f } := by
  have hpne : path ≠ [] := by
    intro e; rw [e] at hpath1; cases hpath1
  have hhead : h.headD 0 ≠ 91 := by
    cases h with
    | nil => decide
    | cons x xs => simpa using (userinfo_char x (hh x (by simp))).2.2.2.1
  have hpa : path ++ (query_text q ++ fragment_text f) = [] ∨
      (path ++ (query_text q ++ fragment_text f)).head? = some 47 := by
    right
    cases path with
    | nil => exact absurd rfl hpne
    | cons x xs => simpa using hpath1
  have hsl : ∀ c, (path ++ (query_text q ++ fragment_text f)).head? = some c →
      isdigit c = false ∧ isspace c = false ∧ c ≠ 45 ∧ c ≠ 43 := by
    intro c hc
    rcases hpa with e | e
    · rw [e] at hc; cases hc
    · rw [e] at hc
      simp only [Option.some.injEq] at hc
      subst hc
      decide
  have hchars : ∀ c ∈ h ++ port_text scheme p, c ≠ 47 ∧ c ≠ 0 ∧ c ≠ 64 := by
    intro c hc
    have hu : inClass URI_USERINFO c = true := by
      rcases List.mem_append.1 hc with e | e
      · exact hh c e
      · unfold port_text at e
        split at e
        · rcases List.mem_cons.1 e with e | e
          · subst e; decide
          · exact (fmt_d_chars p c e).1
        · cases e
    have := userinfo_char c hu
    exact ⟨this.2.1, this.1, this.2.2.1⟩
  rw [parse_uri_text hsch hui hchars hpath (fun e => absurd e hpne) (fun _ => hpath1) hq hf]
  simp only [hpne, if_false]
  by_cases hc : p > 0 ∧ ne_uri_defaultport scheme ≠ p
  · have hpt : port_text scheme p = 58 :: fmt_d p := by
      unfold port_text
      rw [if_pos hc]
    have hp0 : p ≠ 0 := by omega
    obtain ⟨hne, hnc⟩ := hp.resolve_left hp0
    rw [hpt, hostport_port hne hhead (fun c hc => (fmt_d_chars p c hc).2) hpa]
    simp only [fmt_d_ne_nil, if_false, atoi_append hsl, atoi_fmt_d hp32, Option.map_some', hc.2]
  · have hpt : port_text scheme p = [] := by
      unfold port_text
      rw [if_neg hc]
    rw [hpt, List.append_nil, hostport_plain hhead htail hpa]
    have : (if ne_uri_defaultport scheme = p then 0 else p) = 0 := by
      by_cases e : ne_uri_defaultport scheme = p
      · simp [e]
      · have : p = 0 := by
          by_contra h0
          exact hc ⟨Nat.pos_of_ne_zero h0, e⟩
        simp [this]
    simp only [Option.map_some', this]

set_option maxRecDepth 100000 in
theorem host6_char : ∀ c, inClass (URI_UNRESERVED ||| URI_SUBDELIM) c = true →
    inClass URI_USERINFO c = true ∧ c ≠ 58 :=
  class_fact (by decide)

set_option maxRecDepth 100000 in
theorem regname_char : ∀ c, inClass (URI_UNRESERVED ||| PC ||| URI_SUBDELIM) c = true →
    inClass URI_USERINFO c = true ∧ c ≠ 58 :=
  class_fact (by decide)

/-- Parse inverts serialize on the canonical component sets whose host is not
empty or whose port is 0. -/
theorem roundtrip_canonical (c : ne_uri) (scheme host path : List Nat)
    (hs : c.scheme = some scheme) (hh : c.host = some host) (hp : c.path = some path)
    (hsch : is_scheme scheme)
    (hui : ∀ x, c.userinfo = some x → ∀ b ∈ x, inClass URI_USERINFO b = true)
    (hhost : ∀ b ∈ host, inClass (URI_UNRESERVED ||| URI_SUBDELIM) b = true)
    (hport : c.port = 0 ∨
      (0 < c.port ∧ c.port < 2 ^ 31 ∧ c.port ≠ ne_uri_defaultport scheme))
    (hpath1 : path.head? = some 47)
    (hpath : ∀ b ∈ path, inClass URI_SEGCHAR b = true)
    (hq : ∀ x, c.query = some x → ∀ b ∈ x, inClass URI_QUERY b = true)
    (hf : ∀ x, c.fragment = some x → ∀ b ∈ x, inClass URI_QUERY b = true)
    (hne : host ≠ [] ∨ c.port = 0) :
    ∃ s, ne_uri_unparse c = some s ∧ ne_uri_parse s = some c := by
  refine ⟨_, unparse_text hs hh hp, ?_⟩
  have hnc : ∀ b ∈ host, b ≠ 58 := fun b hb => (host6_char b (hhost b hb)).2
  have hp32 : c.port < 4294967296 := by
    rcases hport with e | e
    · omega
    · have := e.2.1
      omega
  rw [reparse hsch hui (fun b hb => (host6_char b (hhost b hb)).1)
    (fun b hb => hnc b (List.mem_of_mem_tail hb))
    (by
      rcases hne with e | e
      · exact Or.inr ⟨e, hnc⟩
      · exact Or.inl e) hp32 hpath hpath1 hq hf]
  have hpo : (if ne_uri_defaultport scheme = c.port then 0 else c.port) = c.port := by
    rcases hport with e | e
    · simp [e]
    · have : ¬ ne_uri_defaultport scheme = c.port := fun x => e.2.2 x.symm
      simp [this]
  rw [hpo]
  cases c
  simp only at hs hh hp
  subst hs; subst hh; subst hp
  rfl

theorem to_unsigned_lt (x : Int) : to_unsigned x < 4294967296 := by
  unfold to_unsigned
  omega

/-- Host scan of a registered name with an optional written port: the result
is a host without colon after its first byte, with a port that is 0 unless the
host is not empty and has no colon. -/
theorem hostport_regname {host pa : List Nat} {pt : Option (List Nat)}
    (hhost : ∀ b ∈ host, inClass URI_USERINFO b = true ∧ b ≠ 58)
    (hpt : ∀ d, pt = some d → ∀ b ∈ d, isdigit b = true)
    (hpa : pa = [] ∨ pa.head? = some 47) :
    ∃ h p, parse_hostport (host ++ written_port pt) pa = some (h, p) ∧
      (∀ c ∈ h, inClass URI_USERINFO c = true) ∧ (∀ c ∈ h.tail, c ≠ 58) ∧
      (p = 0 ∨ (h ≠ [] ∧ ∀ c ∈ h, c ≠ 58)) ∧ p < 4294967296 := by
  have hhead : host.headD 0 ≠ 91 := by
    cases host with
    | nil => decide
    | cons x xs => simpa using (userinfo_char x (hhost x (by simp)).1).2.2.2.1
  have hnc : ∀ b ∈ host, b ≠ 58 := fun b hb => (hhost b hb).2
  cases pt with
  | none =>
    refine ⟨host, 0, ?_, fun c hc => (hhost c hc).1,
      fun c hc => hnc c (List.mem_of_mem_tail hc), Or.inl rfl, by omega⟩
    simp only [written_port, List.append_nil]
    exact hostport_plain hhead (fun c hc => hnc c (List.mem_of_mem_tail hc)) hpa
  | some d =>
    have hd := hpt d rfl
    have hdc : ∀ b ∈ d, b ≠ 58 := by
      intro b hb
      have : 48 ≤ b ∧ b ≤ 57 := by simpa [isdigit] using hd b hb
      omega
    by_cases hne : host = []
    · subst hne
      refine ⟨58 :: d, 0, ?_, ?_, fun c hc => hdc c (by simpa using hc), Or.inl rfl, by omega⟩
      · simp only [written_port, List.nil_append]
        exact hostport_plain (by simp) (fun c hc => hdc c (by simpa using hc)) hpa
      · intro c hc
        rcases List.mem_cons.1 hc with e | e
        · subst e; decide
        · exact digit_userinfo (hd c e)
    · refine ⟨host, _, hostport_port hne hhead hdc hpa, fun c hc => (hhost c hc).1,
        fun c hc => hnc c (List.mem_of_mem_tail hc), Or.inr ⟨hne, hnc⟩, ?_⟩
      split
      · omega
      · exact to_unsigned_lt _

/-! ## Host scan of an IP-literal with a port -/

set_option maxRecDepth 100000 in
theorem literal_char : ∀ c, inClass (URI_UNRESERVED ||| URI_SUBDELIM ||| CL) c = true →
    inClass URI_USERINFO c = true ∧ c ≠ 93 :=
  class_fact (by decide)

theorem hostport_literal {lit d : List Nat} (pa : List Nat) (hlit : 93 ∉ lit) (hd : d ≠ []) :
    parse_hostport (91 :: (lit ++ 93 :: 58 :: d)) pa =
      some (91 :: (lit ++ [93]), to_unsigned (atoi (d ++ pa))) := by
  have hr : (58 :: d) = [] ∨ (58 :: d).head? = some 58 := Or.inr rfl
  rw [hostport_bracket_ok pa hlit hr]
  have hl : (58 :: d).length ≠ 1 := by
    cases d with
    | nil => exact absurd rfl hd
    | cons y ys => simp
  simp only [hl, ne_eq, not_false_eq_true, if_true, List.cons_append, List.drop_succ_cons,
    List.drop_zero]

theorem reparse_literal {scheme lit path : List Nat} {ui q f : Option (List Nat)} {p : Nat}
    (hsch : is_scheme scheme)
    (hui : ∀ x, ui = some x → ∀ c ∈ x, inClass URI_USERINFO c = true)
    (hlit : ∀ b ∈ lit, inClass (URI_UNRESERVED ||| URI_SUBDELIM ||| CL) b = true)
    (hp : p > 0 ∧ ne_uri_defaultport scheme ≠ p)
    (hp32 : p < 4294967296)
    (hpath : ∀ c ∈ path, inClass URI_SEGCHAR c = true)
    (hpath1 : path.head? = some 47)
    (hq : ∀ x, q = some x → ∀ c ∈ x, inClass URI_QUERY c = true)
    (hf : ∀ x, f = some x → ∀ c ∈ x, inClass URI_QUERY c = true) :
    ne_uri_parse (uri_text scheme ui (91 :: (lit ++ [93]) ++ port_text scheme p) path q f) =
      some { scheme := some scheme, host := some (91 :: (lit ++ [93])), userinfo := ui,
             port := if ne_uri_defaultport scheme = p then 0 else p,
             path := some path, query := q, fragment := f } := by
  have hpne : path ≠ [] := by
    intro e; rw [e] at hpath1; cases hpath1
  have hsl : ∀ c, (path ++ (query_text q ++ fragment_text f)).head? = some c →
      isdigit c = false ∧ isspace c = false ∧ c ≠ 45 ∧ c ≠ 43 := by
    intro c hc
    cases path with
    | nil => exact absurd rfl hpne
    | cons x xs =>
      simp only [List.head?_cons, Option.some.injEq] at hpath1
      simp only [List.cons_append, List.head?_cons, Option.some.injEq] at hc
      subst hpath1; subst hc
      decide
  have hpt : port_text scheme p = 58 :: fmt_d p := by
    unfold port_text
    rw [if_pos hp]
  have e : 91 :: (lit ++ [93]) ++ 58 :: fmt_d p = 91 :: (lit ++ 93 :: 58 :: fmt_d p) := by
    simp
  have hchars : ∀ c ∈ 91 :: (lit ++ 93 :: 58 :: fmt_d p), c ≠ 47 ∧ c ≠ 0 ∧ c ≠ 64 := by
    intro c hc
    have hu : ∀ c, inClass URI_USERINFO c = true → c ≠ 47 ∧ c ≠ 0 ∧ c ≠ 64 := by
      intro c hc
      have := userinfo_char c hc
      exact ⟨this.2.1, this.1, this.2.2.1⟩
    simp only [List.mem_cons, List.mem_append] at hc
    rcases hc with rfl | h | rfl | rfl | h
    · decide
    · exact hu c (literal_char c (hlit c h)).1
    · decide
    · decide
    · exact hu c (fmt_d_chars p c h).1
  have hnot : 93 ∉ lit := fun h => (literal_char 93 (hlit 93 h)).2 rfl
  rw [hpt, e, parse_uri_text hsch hui hchars hpath (fun e => absurd e hpne) (fun _ => hpath1)
    hq hf, hostport_literal _ hnot (fmt_d_ne_nil p), atoi_append hsl, atoi_fmt_d hp32]
  simp only [hpne, if_false, Option.map_some', hp.2]

/-- Parse, serialize and parse again, given the host scan of the first parse
and the second parse. -/
theorem roundtrip_from_scan {scheme hp h path : List Nat} {ui q f : Option (List Nat)}
    {p : Nat} (hsch : is_scheme scheme)
    (hui : ∀ x, ui = some x → ∀ b ∈ x, inClass URI_USERINFO b = true)
    (hchars : ∀ c ∈ hp, c ≠ 47 ∧ c ≠ 0 ∧ c ≠ 64)
    (hpath : ∀ b ∈ path, inClass URI_SEGCHAR b = true)
    (hpath0 : path = [] → q = none ∧ f = none)
    (hpath1 : path ≠ [] → path.head? = some 47)
    (hq : ∀ x, q = some x → ∀ b ∈ x, inClass URI_QUERY b = true)
    (hf : ∀ x, f = some x → ∀ b ∈ x, inClass URI_QUERY b = true)
    (hscan : parse_hostport hp (path ++ (query_text q ++ fragment_text f)) = some (h, p))
    (hre : ne_uri_parse (uri_text scheme ui (h ++ port_text scheme p)
        (if path = [] then [47] else path) q f) =
      some { scheme := some scheme, host := some h, userinfo := ui,
             port := if ne_uri_defaultport scheme = p then 0 else p,
             path := some (if path = [] then [47] else path), query := q, fragment := f }) :
    ∃ c s c', ne_uri_parse (uri_text scheme ui hp path q f) = some c ∧
      ne_uri_unparse c = some s ∧ ne_uri_parse s = some c' ∧
      c.scheme = some scheme ∧ c'.scheme = c.scheme ∧ c'.userinfo = c.userinfo ∧
      c'.host = c.host ∧ c'.path = c.path ∧ c'.query = c.query ∧
      c'.fragment = c.fragment ∧
      norm_port scheme c'.port = norm_port scheme c.port := by
  have hparse := parse_uri_text hsch hui hchars hpath hpath0 hpath1 hq hf
  rw [hscan] at hparse
  simp only [Option.map_some'] at hparse
  refine ⟨_, _, _, hparse, unparse_text rfl rfl rfl, hre, rfl, rfl, rfl, rfl, rfl, rfl, rfl, ?_⟩
  simp only [norm_port]
  by_cases e : ne_uri_defaultport scheme = p
  · simp [e]
  · have e' : ¬ p = ne_uri_defaultport scheme := fun x => e x.symm
    simp [e, e']

theorem default_path_chars {path : List Nat}
    (hpath : ∀ b ∈ path, inClass URI_SEGCHAR b = true)
    (hpath1 : path ≠ [] → path.head? = some 47) :
    (∀ b ∈ (if path = [] then [47] else path), inClass URI_SEGCHAR b = true) ∧
    (if path = [] then [47] else path).head? = some 47 := by
  by_cases e : path = []
  · simp only [e, if_true, List.mem_singleton, List.head?_cons, and_true]
    intro b hb
    subst hb
    decide
  · simp only [e, if_false]
    exact ⟨hpath, hpath1 e⟩

theorem authority_end {path : List Nat} {q f : Option (List Nat)}
    (hpath0 : path = [] → q = none ∧ f = none)
    (hpath1 : path ≠ [] → path.head? = some 47) :
    path ++ (query_text q ++ fragment_text f) = [] ∨
      (path ++ (query_text q ++ fragment_text f)).head? = some 47 := by
  by_cases hp : path = []
  · obtain ⟨h1, h2⟩ := hpath0 hp
    left
    simp [hp, h1, h2, query_text, fragment_text]
  · right
    have := hpath1 hp
    cases path with
    | nil => exact absurd rfl hp
    | cons x xs => simpa using this

/-- The round trip at the component set of `"http://example.com/a/b?q=1#frag"`. -/
theorem roundtrip_canonical_example :
    ∃ s, ne_uri_unparse { scheme := some (bytes "http"), host := some (bytes "example.com"),
                          userinfo := none, port := 0, path := some (bytes "/a/b"),
                          query := some (bytes "q=1"), fragment := some (bytes "frag") }
        = some s ∧
      ne_uri_parse s =
        some { scheme := some (bytes "http"), host := some (bytes "example.com"),
               userinfo := none, port := 0, path := some (bytes "/a/b"),
               query := some (bytes "q=1"), fragment := some (bytes "frag") } :=
  roundtrip_canonical _ (bytes "http") (bytes "example.com") (bytes "/a/b") rfl rfl rfl
    ⟨⟨104, by decide, by decide⟩, by decide⟩
    (fun x h => by cases h) (by decide) (Or.inl rfl) (by decide) (by decide)
    (fun x h => by cases h; decide) (fun x h => by cases h; decide) (Or.inr rfl)

/-! ## Claims -/

/-- C1 (code bug).  Bytes left over after the fragment are not rejected:
`"/a#b#c"` is accepted with fragment `"b"` and `"/a?q#f g"` with query `"q"`
and fragment `"f"`, although the code states that `p` must point to the end
of the input there. -/
theorem parse_accepts_trailing_bytes :
    ne_uri_parse (bytes "/a#b#c") =
      some { scheme := none, host := none, userinfo := none, port := 0,
             path := some (bytes "/a"), query := none, fragment := some (bytes "b") } ∧
    ne_uri_parse (bytes "/a?q#f g") =
      some { scheme := none, host := none, userinfo := none, port := 0,
             path := some (bytes "/a"), query := some (bytes "q"),
             fragment := some (bytes "f") } := by
  decide

/-- C2 (code bug).  For `"http://[::1]/80"`, a bracketed host with no colon
after `]`, the parse succeeds with port 80, read from the path. -/
theorem parse_bracket_port_from_path :
    ne_uri_parse (bytes "http://[::1]/80") =
      some { scheme := some (bytes "http"), host := some (bytes "[::1]"), userinfo := none,
             port := 80, path := some (bytes "/80"), query := none, fragment := none } := by
  decide

/-- C3 (code bug).  For `"http://:80/"`, whose host part `":80"` has its only
colon first, the parse gives host `":80"` and port 0, not an empty host and
port 80. -/
theorem parse_leading_colon_host :
    ne_uri_parse (bytes "http://:80/") =
      some { scheme := some (bytes "http"), host := some (bytes ":80"), userinfo := none,
             port := 0, path := some (bytes "/"), query := none, fragment := none } := by
  decide

/-- C4 (as stated, refuted).  The parse of `"http://[::1]:8080/"` does not
give the host `"::1"`. -/
theorem parse_ip_literal_host_not_stripped :
    ¬ ∃ c, ne_uri_parse (bytes "http://[::1]:8080/") = some c ∧
      c.host = some (bytes "::1") ∧ c.port = 8080 ∧ c.path = some (bytes "/") := by
  decide

/-- C4 (amended).  The parse of `"http://[::1]:8080/"` succeeds with host
`"[::1]"`, the IP-literal with its square brackets, port 8080 and path `"/"`. -/
theorem parse_ip_literal_keeps_brackets :
    ne_uri_parse (bytes "http://[::1]:8080/") =
      some { scheme := some (bytes "http"), host := some (bytes "[::1]"), userinfo := none,
             port := 8080, path := some (bytes "/"), query := none, fragment := none } := by
  decide

/-- C5.  For an input with a `//` authority whose host part `hp` starts with
`[`: the parse fails if `hp` has no `]`, or if the byte after its first `]` is
inside the authority and is not `:`.  If the first `]` is followed by `:` or
ends the authority, the host check passes, and the parse fails only if the
scan of path, query and fragment does. -/
theorem ip_literal_check (u hp pa : List Nat) (h : host_part u = some (hp, pa))
    (hb : hp.head? = some 91) :
    ((93 ∉ hp ∨ ∃ lit c r, hp = 91 :: (lit ++ 93 :: c :: r) ∧ 93 ∉ lit ∧ c ≠ 58) →
      ne_uri_parse u = none) ∧
    ((∃ lit r, hp = 91 :: (lit ++ 93 :: r) ∧ 93 ∉ lit ∧ (r = [] ∨ r.head? = some 58)) →
      parse_hostport hp pa ≠ none ∧
      (ne_uri_parse u = none ↔
        parse_tail (if pa.headD 0 = 0 then [47] else pa) = none)) := by
  have h0 := host_part_headD h
  have hiff := parse_none_of_host_part h0 h
  constructor
  · intro hcase
    rw [hiff]
    left
    rcases hcase with hno | ⟨lit, c, r, rfl, hlit, hc⟩
    · cases hp with
      | nil => simp at hb
      | cons a body =>
        simp only [List.head?_cons, Option.some.injEq] at hb
        subst hb
        exact hostport_no_bracket (fun hm => hno (List.mem_cons_of_mem _ hm))
    · exact hostport_bad_follow hlit hc
  · rintro ⟨lit, r, rfl, hlit, hr⟩
    have hok := hostport_bracket_ok pa hlit hr
    refine ⟨by rw [hok]; simp, ?_⟩
    rw [hiff, hok]
    simp

/-- C5 at `"http://[::1"`: no closing bracket, the parse fails. -/
theorem ip_literal_check_witness : ne_uri_parse (bytes "http://[::1") = none :=
  (ip_literal_check (bytes "http://[::1") (bytes "[::1") [] (by decide) (by decide)).1
    (Or.inl (by decide))

/-- For a byte below 0x80 the lookup of a plain `char` reads the entry of the
byte: there the lookup by byte value is the code's. -/
theorem lookup_char_ascii {b : Nat} (h : b < 128) :
    uri_lookup_char b = some (uri_lookup b) := by
  have hl : uri_chars.length = 256 := uri_chars_length
  have hi : char_index b = b := by simp only [char_index, h, if_true]
  have hb : b < 256 := by omega
  simp only [uri_lookup_char, hi, hl, hb, if_true, uri_lookup]

/-- For a byte from 0x80 on the lookup of a plain `char` is outside the
table. -/
theorem lookup_char_high {b : Nat} (h : 128 ≤ b) : uri_lookup_char b = none := by
  have hl : uri_chars.length = 256 := uri_chars_length
  have hn : ¬ b < 128 := by omega
  have hi : ¬ char_index b < 256 := by
    simp only [char_index, hn, if_false]
    omega
  simp only [uri_lookup_char, hl, hi, if_false]

/-- Scheme detection on inputs of bytes below 0x80, where every lookup of the
parser is inside the table.  If the input is an ALPHA byte followed by
SCHEME-CHAR bytes, this run being followed by `:`, the scheme is the run and
the rest of the parse runs on the text after the colon.  In every other case
the scheme is absent and the rest of the parse runs on the whole input;
`"foo/bar"` has no scheme and path `"foo/bar"`. -/
theorem scheme_detection :
    (∀ run rest a, run.head? = some a → is_alpha a = true →
      (∀ c ∈ run, is_scheme_char c = true) → (∀ b ∈ rest, b < 128) →
      ne_uri_parse (run ++ 58 :: rest) =
        (parse_hier rest).map (fun c => { c with scheme := some run })) ∧
    (∀ u, u.headD 0 ≠ 0 → (∀ b ∈ u, b < 128) →
      (¬ ∃ run rest a, run.head? = some a ∧ is_alpha a = true ∧
        (∀ c ∈ run, is_scheme_char c = true) ∧ u = run ++ 58 :: rest) →
      ne_uri_parse u = parse_hier u) ∧
    ne_uri_parse (bytes "foo/bar") =
      some { scheme := none, host := none, userinfo := none, port := 0,
             path := some (bytes "foo/bar"), query := none, fragment := none } := by
  refine ⟨?_, ?_, by decide⟩
  · intro run rest a ha hal hrun _
    have hps := parse_scheme_found rest ha hal hrun
    have h0 : (run ++ 58 :: rest).headD 0 ≠ 0 := by
      cases run with
      | nil => simp at ha
      | cons b bs =>
        simp only [List.head?_cons, Option.some.injEq] at ha
        subst ha
        simp only [List.cons_append, List.headD_cons]
        intro hb
        rw [hb] at hal
        exact absurd hal (by decide)
    simp only [ne_uri_parse, h0, if_false, hps]
    cases parse_hier rest <;> rfl
  · intro u h0 _ hno
    have hps := parse_scheme_absent hno
    simp only [ne_uri_parse, h0, if_false, hps]
    cases h : parse_hier u with
    | none => rfl
    | some c =>
      have hsch : c.scheme = none := parse_hier_scheme h
      cases c
      simp only at hsch
      subst hsch
      rfl

/-- Scheme detection at `"http://h/"`: the scheme is `"http"`. -/
theorem scheme_detection_witness :
    ne_uri_parse (bytes "http" ++ 58 :: bytes "//h/") =
      (parse_hier (bytes "//h/")).map (fun c => { c with scheme := some (bytes "http") }) :=
  scheme_detection.1 (bytes "http") (bytes "//h/") 104 (by decide) (by decide) (by decide)
    (by decide)

/-- C9 (code bug).  For the input of the single byte 0xE9 the scheme test of
line 160 looks up `uri_chars[(unsigned)ch]` with `ch` the plain `char` -23,
where `char` is signed: the index is 4294967273, outside the 256 entries of
the table, and the test has no defined result, so the parse does not go on
from the first byte with the scheme absent.  Read through `unsigned char`, as
in `ne_path_escape`, the same byte has index 233 and the entry `OT`. -/
theorem scheme_lookup_out_of_table :
    char_index ([233].headD 0) = 4294967273 ∧ uri_chars.length = 256 ∧
    uri_lookup_char ([233].headD 0) = none ∧ scheme_test [233] = none ∧
    uri_lookup 233 = OT := by
  refine ⟨by decide, uri_chars_length, lookup_char_high (by decide), ?_, by decide⟩
  have h : uri_lookup_char ([233].headD 0) = none := lookup_char_high (by decide)
  simp only [scheme_test, h, Option.map_none']

/-- C10.  For a component set with scheme, host and path present and a port
below 2^31, `ne_uri_unparse` gives scheme, `"://"`, the userinfo and `"@"` if
present, the host, `":"` and the decimal port iff the port is nonzero and is
not the default port of the scheme, the path, `"?"` and the query if present,
`"#"` and the fragment if present.  The default port is 80 for `"http"`, 443
for `"https"`, ignoring case, and 0 otherwise. -/
theorem unparse_format (c : ne_uri) (scheme host path : List Nat)
    (hs : c.scheme = some scheme) (hh : c.host = some host) (hp : c.path = some path)
    (hnul : 0 ∉ scheme) (hport : c.port < 2 ^ 31) :
    ne_uri_unparse c = some (scheme ++ bytes "://"
      ++ (match c.userinfo with | some ui => ui ++ bytes "@" | none => [])
      ++ host
      ++ (if c.port ≠ 0 ∧ c.port ≠ ne_uri_defaultport scheme
          then bytes ":" ++ numeral c.port else [])
      ++ path
      ++ (match c.query with | some q => bytes "?" ++ q | none => [])
      ++ (match c.fragment with | some f => bytes "#" ++ f | none => [])) ∧
    ne_uri_defaultport scheme =
      (if scheme.map tolower = bytes "http" then 80
       else if scheme.map tolower = bytes "https" then 443 else 0) := by
  constructor
  · have hb1 : bytes "://" = [58, 47, 47] := by decide
    have hb2 : bytes "@" = [64] := by decide
    have hb3 : bytes ":" = [58] := by decide
    have hb4 : bytes "?" = [63] := by decide
    have hb5 : bytes "#" = [35] := by decide
    simp only [ne_uri_unparse, hs, hh, hp, hb1, hb2, hb3, hb4, hb5]
    have hport' : c.port < 2147483648 := by simpa using hport
    have hpt : (if c.port > 0 ∧ ne_uri_defaultport scheme ≠ c.port
          then 58 :: fmt_d c.port else []) =
        (if c.port ≠ 0 ∧ c.port ≠ ne_uri_defaultport scheme
          then [58] ++ numeral c.port else []) := by
      by_cases h0 : c.port = 0
      · simp [h0]
      · have hpos : 0 < c.port := Nat.pos_of_ne_zero h0
        by_cases hd : ne_uri_defaultport scheme = c.port
        · simp [hd]
        · have hd' : c.port ≠ ne_uri_defaultport scheme := fun e => hd e.symm
          simp only [gt_iff_lt, hpos, ne_eq, hd, not_false_eq_true, and_self, if_true, h0, hd',
            fmt_d, hport', decimal_eq_numeral hpos, List.singleton_append]
    rw [hpt]
    cases c.userinfo <;> cases c.query <;> cases c.fragment <;> simp
  · have h1 : (0 : Nat) ∉ [104, 116, 116, 112] := by decide
    have h2 : (0 : Nat) ∉ [104, 116, 116, 112, 115] := by decide
    have hb1 : bytes "http" = [104, 116, 116, 112] := by decide
    have hb2 : bytes "https" = [104, 116, 116, 112, 115] := by decide
    have e1 : List.map tolower [104, 116, 116, 112] = [104, 116, 116, 112] := by decide
    have e2 : List.map tolower [104, 116, 116, 112, 115] = [104, 116, 116, 112, 115] := by
      decide
    unfold ne_uri_defaultport
    simp only [strcasecmp_eq_zero hnul h1, strcasecmp_eq_zero hnul h2, e1, e2, hb1, hb2]

/-- C10 at scheme `"HTTP"`, userinfo `"u"`, host `"h"`, port 8080, path `"/p"`,
empty query, no fragment. -/
theorem unparse_format_witness :
    ne_uri_unparse { scheme := some (bytes "HTTP"), host := some (bytes "h"),
                     userinfo := some (bytes "u"), port := 8080, path := some (bytes "/p"),
                     query := some [], fragment := none } =
      some (bytes "HTTP" ++ bytes "://" ++ (bytes "u" ++ bytes "@") ++ bytes "h"
        ++ (if (8080 : Nat) ≠ 0 ∧ 8080 ≠ ne_uri_defaultport (bytes "HTTP")
            then bytes ":" ++ numeral 8080 else [])
        ++ bytes "/p" ++ (bytes "?" ++ []) ++ []) ∧
    ne_uri_defaultport (bytes "HTTP") =
      (if (bytes "HTTP").map tolower = bytes "http" then 80
       else if (bytes "HTTP").map tolower = bytes "https" then 443 else 0) :=
  unparse_format _ (bytes "HTTP") (bytes "h") (bytes "/p") rfl rfl rfl (by decide) (by decide)

/-- C8 (as stated, refuted).  `"//h"` and `"//h/"` parse to the same component
set, which has no scheme, and `ne_uri_cmp` on it dereferences the `NULL`
scheme: its result is not 0. -/
theorem cmp_needs_scheme :
    ∃ c, ne_uri_parse (bytes "//h") = some c ∧ ne_uri_parse (bytes "//h" ++ bytes "/") = some c ∧
      ne_uri_cmp c c = none :=
  ⟨{ scheme := none, host := some (bytes "h"), userinfo := none, port := 0,
     path := some (bytes "/"), query := none, fragment := none },
   by decide, by decide, by decide⟩

/-- C8 (amended).  Let `u` be an optional scheme followed by `//` and a text
`rest` without `/`, of bytes below 0x80, whose host part (the text after the
userinfo and `@`, if any) is not a bracketed literal `[` ... `]` that ends
the input.  Then `u` and `u ++ "/"` have the same parse result: both fail or
both give the same component set, whose path is `"/"` and whose query and
fragment are absent; when this set has a scheme, `ne_uri_cmp` of the two
results is 0.  The two conditions keep every lookup of the parser inside the
table and the read of `atoi(p + 1)` inside the input. -/
theorem default_path (sch : Option (List Nat)) (rest : List Nat)
    (hsch : ∀ run, sch = some run → is_scheme run) (hs : 47 ∉ rest) (hz : 0 ∉ rest)
    (_hascii : ∀ b ∈ rest, b < 128)
    (_hlit : ∀ hp pa, host_part (scheme_lead sch ++ 47 :: 47 :: rest) = some (hp, pa) →
      ∀ lit, 93 ∉ lit → hp ≠ 91 :: (lit ++ [93])) :
    ne_uri_parse ((scheme_lead sch ++ 47 :: 47 :: rest) ++ [47]) =
      ne_uri_parse (scheme_lead sch ++ 47 :: 47 :: rest) ∧
    ∀ c, ne_uri_parse (scheme_lead sch ++ 47 :: 47 :: rest) = some c →
      c.path = some [47] ∧ c.query = none ∧ c.fragment = none ∧
      (c.scheme ≠ none → ne_uri_cmp c c = some 0) := by
  have e : (scheme_lead sch ++ 47 :: 47 :: rest) ++ [47] =
      scheme_lead sch ++ 47 :: 47 :: (rest ++ [47]) := by simp
  obtain ⟨h1, h2⟩ := hier_slash hs hz
  rw [e, parse_with_lead _ hsch, parse_with_lead _ hsch, h1]
  refine ⟨rfl, ?_⟩
  intro c hc
  cases hh : parse_hier (47 :: 47 :: rest) with
  | none => rw [hh] at hc; cases hc
  | some d =>
    rw [hh] at hc
    simp only [Option.map_some', Option.some.injEq] at hc
    obtain ⟨hp, hq, hf, hhost⟩ := h2 d hh
    subst hc
    refine ⟨hp, hq, hf, ?_⟩
    intro hne
    simp only at hne
    cases hsc : sch with
    | none => exact absurd hsc hne
    | some run =>
      cases hho : d.host with
      | none => exact absurd hho hhost
      | some host =>
        simp [ne_uri_cmp, hp, hho, strcmp_self, strcasecmp]

/-- C8 at `"http://h"`. -/
theorem default_path_witness :
    ne_uri_parse ((scheme_lead (some (bytes "http")) ++ 47 :: 47 :: bytes "h") ++ [47]) =
      ne_uri_parse (scheme_lead (some (bytes "http")) ++ 47 :: 47 :: bytes "h") ∧
    ∀ c, ne_uri_parse (scheme_lead (some (bytes "http")) ++ 47 :: 47 :: bytes "h") = some c →
      c.path = some [47] ∧ c.query = none ∧ c.fragment = none ∧
      (c.scheme ≠ none → ne_uri_cmp c c = some 0) :=
  default_path (some (bytes "http")) (bytes "h")
    (fun run h => by
      have e : run = bytes "http" := (Option.some.inj h).symm
      subst e
      exact ⟨⟨104, by decide, by decide⟩, by decide⟩)
    (by decide) (by decide) (by decide)
    (fun hp pa h lit _ e => by
      have hh : host_part (scheme_lead (some (bytes "http")) ++ 47 :: 47 :: bytes "h") =
          some ([104], []) := by decide
      rw [hh] at h
      simp only [Option.some.injEq, Prod.mk.injEq] at h
      rw [← h.1] at e
      simp at e)

/-- C6 (code bug).  For the component set with scheme `"http"`, empty host,
port 8080 and path `"/"`, `ne_uri_unparse` writes `"http://:8080/"`, and the
parse of this text has host `":8080"` and port 0: parse does not invert
serialize there. -/
theorem unparse_parse_empty_host :
    ne_uri_unparse { scheme := some (bytes "http"), host := some [], userinfo := none,
                     port := 8080, path := some (bytes "/"), query := none,
                     fragment := none } = some (bytes "http://:8080/") ∧
    ne_uri_parse (bytes "http://:8080/") =
      some { scheme := some (bytes "http"), host := some (bytes ":8080"), userinfo := none,
             port := 0, path := some (bytes "/"), query := none, fragment := none } := by
  decide

/-- C7 (as stated, refuted).  `"http://h?::"` is the text of an absolute URI
with scheme `"http"`, host `"h"`, empty path and query `"::"`.  Its parse has
host `"h?:"`, the serializer writes `"http://h?:/"`, and the parse of that has
host `"h?"`. -/
theorem roundtrip_fails_query_after_authority :
    bytes "http://h?::" = uri_text (bytes "http") none (bytes "h") [] (some (bytes "::")) none ∧
    is_regname_hostport (bytes "h") ∧
    ∃ c s c', ne_uri_parse (bytes "http://h?::") = some c ∧ ne_uri_unparse c = some s ∧
      ne_uri_parse s = some c' ∧ c.host = some (bytes "h?:") ∧ c'.host = some (bytes "h?") :=
  ⟨by decide, ⟨bytes "h", none, by decide, by decide, fun d h => by cases h⟩,
   { scheme := some (bytes "http"), host := some (bytes "h?:"), userinfo := none, port := 0,
     path := some (bytes "/"), query := none, fragment := none },
   bytes "http://h?:/",
   { scheme := some (bytes "http"), host := some (bytes "h?"), userinfo := none, port := 0,
     path := some (bytes "/"), query := none, fragment := none },
   by decide, by decide, by decide, rfl, rfl⟩

/-- C7 (amended).  Let `u` be the text of an absolute URI: a scheme, `://`, an
optional userinfo and `@`, a host part, a path that is empty or starts with
`/`, an optional `?query` and an optional `#fragment`, where query and
fragment are absent when the path is empty.  The host part is a registered
name with an optional `:` and digits, or a bracketed IP-literal with `:` and a
port that is neither 0 nor the default port of the scheme.  Then the parse of
`u` succeeds with a component set `c`, the serializer writes a text for `c`,
and the parse of that text succeeds with a component set that has the scheme,
userinfo, host, path, query and fragment of `c` and, after default-port
normalization, its port. -/
theorem roundtrip_absolute (scheme : List Nat) (ui : Option (List Nat)) (hp path : List Nat)
    (q f : Option (List Nat))
    (hsch : is_scheme scheme)
    (hui : ∀ x, ui = some x → ∀ b ∈ x, inClass URI_USERINFO b = true)
    (hhp : is_regname_hostport hp ∨ is_literal_hostport scheme hp)
    (hpath : ∀ b ∈ path, inClass URI_SEGCHAR b = true)
    (hpath0 : path = [] → q = none ∧ f = none)
    (hpath1 : path ≠ [] → path.head? = some 47)
    (hq : ∀ x, q = some x → ∀ b ∈ x, inClass URI_QUERY b = true)
    (hf : ∀ x, f = some x → ∀ b ∈ x, inClass URI_QUERY b = true) :
    ∃ c s c', ne_uri_parse (uri_text scheme ui hp path q f) = some c ∧
      ne_uri_unparse c = some s ∧ ne_uri_parse s = some c' ∧
      c.scheme = some scheme ∧ c'.scheme = c.scheme ∧ c'.userinfo = c.userinfo ∧
      c'.host = c.host ∧ c'.path = c.path ∧ c'.query = c.query ∧
      c'.fragment = c.fragment ∧
      norm_port scheme c'.port = norm_port scheme c.port := by
  have hpa := authority_end hpath0 hpath1
  obtain ⟨hpath', hpath1'⟩ := default_path_chars hpath hpath1
  have hu : ∀ c, inClass URI_USERINFO c = true → c ≠ 47 ∧ c ≠ 0 ∧ c ≠ 64 := by
    intro c hc
    have := userinfo_char c hc
    exact ⟨this.2.1, this.1, this.2.2.1⟩
  rcases hhp with ⟨host, pt, rfl, hhost, hpt⟩ | ⟨lit, d, rfl, hlit, hd, hdig, hn0, hndef⟩
  · obtain ⟨h, p, hscan, hhc, hht, hpo, hp32⟩ :=
      hostport_regname (fun b hb => regname_char b (hhost b hb)) hpt hpa
    have hchars : ∀ c ∈ host ++ written_port pt, c ≠ 47 ∧ c ≠ 0 ∧ c ≠ 64 := by
      intro c hc
      apply hu
      rcases List.mem_append.1 hc with e | e
      · exact (regname_char c (hhost c e)).1
      · cases pt with
        | none => cases e
        | some d =>
          rcases List.mem_cons.1 e with e | e
          · subst e; decide
          · exact digit_userinfo (hpt d rfl c e)
    exact roundtrip_from_scan hsch hui hchars hpath hpath0 hpath1 hq hf hscan
      (reparse hsch hui hhc hht hpo hp32 hpath' hpath1' hq hf)
  · have hsl : ∀ c, (path ++ (query_text q ++ fragment_text f)).head? = some c →
        isdigit c = false ∧ isspace c = false ∧ c ≠ 45 ∧ c ≠ 43 := by
      intro c hc
      rcases hpa with e | e
      · rw [e] at hc; cases hc
      · rw [e] at hc
        simp only [Option.some.injEq] at hc
        subst hc
        decide
    have hnot : 93 ∉ lit := fun h => (literal_char 93 (hlit 93 h)).2 rfl
    have hscan := hostport_literal (path ++ (query_text q ++ fragment_text f)) hnot hd
    rw [atoi_append hsl] at hscan
    have hchars : ∀ c ∈ 91 :: (lit ++ 93 :: 58 :: d), c ≠ 47 ∧ c ≠ 0 ∧ c ≠ 64 := by
      intro c hc
      simp only [List.mem_cons, List.mem_append] at hc
      rcases hc with rfl | h | rfl | rfl | h
      · decide
      · exact hu c (literal_char c (hlit c h)).1
      · decide
      · decide
      · exact hu c (digit_userinfo (hdig c h))
    exact roundtrip_from_scan hsch hui hchars hpath hpath0 hpath1 hq hf hscan
      (reparse_literal hsch hui hlit
        ⟨Nat.pos_of_ne_zero hn0, fun e => hndef e.symm⟩ (to_unsigned_lt _) hpath' hpath1' hq hf)

/-- C7 at `"ftp://u@h.x:0081/a?b#c"`. -/
theorem roundtrip_absolute_witness :
    ∃ c s c', ne_uri_parse (uri_text (bytes "ftp") (some (bytes "u")) (bytes "h.x:0081")
        (bytes "/a") (some (bytes "b")) (some (bytes "c"))) = some c ∧
      ne_uri_unparse c = some s ∧ ne_uri_parse s = some c' ∧
      c.scheme = some (bytes "ftp") ∧ c'.scheme = c.scheme ∧ c'.userinfo = c.userinfo ∧
      c'.host = c.host ∧ c'.path = c.path ∧ c'.query = c.query ∧
      c'.fragment = c.fragment ∧
      norm_port (bytes "ftp") c'.port = norm_port (bytes "ftp") c.port :=
  roundtrip_absolute (bytes "ftp") (some (bytes "u")) (bytes "h.x:0081")
    (bytes "/a") (some (bytes "b")) (some (bytes "c"))
    ⟨⟨102, by decide, by decide⟩, by decide⟩
    (fun x h => by cases h; decide)
    (Or.inl ⟨bytes "h.x", some (bytes "0081"), by decide, by decide,
      fun d h => by cases h; decide⟩)
    (by decide) (fun h => absurd h (by decide)) (fun _ => by decide)
    (fun x h => by cases h; decide) (fun x h => by cases h; decide)

/-! ## The parse of segment bytes -/

theorem parse_tail_segchars {s : List Nat} (h : ∀ c ∈ s, inClass URI_SEGCHAR c = true) :
    parse_tail s = some (s, none, none) := by
  simp only [parse_tail, takeWhile_all h, dropWhile_all h, List.headD_nil, if_true]

theorem hostport_plain_some {hp pa : List Nat} (h : (hp ++ pa).headD 0 ≠ 91) :
    parse_hostport hp pa ≠ none := by
  unfold parse_hostport
  simp only [h, if_false]
  split <;> simp

theorem parse_scheme_subset (u : List Nat) : ∀ c ∈ (parse_scheme u).2, c ∈ u := by
  intro c hc
  unfold parse_scheme at hc
  dsimp only at hc
  split at hc
  · split at hc
    · exact (List.dropWhile_sublist _).subset (List.mem_of_mem_tail hc)
    · exact hc
  · exact hc

theorem parse_userinfo_subset (auth pa : List Nat) :
    ∀ c ∈ (parse_userinfo auth pa).2, c ∈ auth := by
  intro c hc
  unfold parse_userinfo at hc
  dsimp only at hc
  split at hc
  · exact (List.dropWhile_sublist _).subset (List.mem_of_mem_tail hc)
  · exact hc

set_option maxRecDepth 100000 in
theorem segchar_not_bracket : ∀ c, inClass URI_SEGCHAR c = true → c ≠ 91 :=
  class_fact (by decide)

theorem headD_ne_of_forall {l : List Nat} {v : Nat} (hv : v ≠ 0) (h : ∀ c ∈ l, c ≠ v) :
    l.headD 0 ≠ v := by
  cases l with
  | nil => exact fun e => hv e.symm
  | cons x xs => exact h x (by simp)

theorem parse_hier_segchars {s : List Nat} (h : ∀ c ∈ s, inClass URI_SEGCHAR c = true) :
    parse_hier s ≠ none := by
  unfold parse_hier
  by_cases hs : s.headD 0 = 47 ∧ s.tail.headD 0 = 47
  · simp only [hs, and_self, if_true]
    have hdrop : ∀ c ∈ s.drop 2, c ∈ s := fun c hc => List.mem_of_mem_drop hc
    have hpa : ∀ c ∈ (s.drop 2).dropWhile (fun c => c != 47 && c != 0),
        inClass URI_SEGCHAR c = true :=
      fun c hc => h c (hdrop c ((List.dropWhile_sublist _).subset hc))
    have hauth : ∀ c ∈ (s.drop 2).takeWhile (fun c => c != 47 && c != 0),
        inClass URI_SEGCHAR c = true :=
      fun c hc => h c (hdrop c ((List.takeWhile_sublist _).subset hc))
    generalize (s.drop 2).dropWhile (fun c => c != 47 && c != 0) = pa at hpa
    generalize (s.drop 2).takeWhile (fun c => c != 47 && c != 0) = auth at hauth
    have hhp : (parse_hostport (parse_userinfo auth pa).2 pa) ≠ none := by
      apply hostport_plain_some
      apply headD_ne_of_forall (by decide)
      intro c hc
      rcases List.mem_append.1 hc with e | e
      · exact segchar_not_bracket c (hauth c (parse_userinfo_subset auth pa c e))
      · exact segchar_not_bracket c (hpa c e)
    have htail : parse_tail (if pa.headD 0 = 0 then [47] else pa) =
        some (if pa.headD 0 = 0 then [47] else pa, none, none) := by
      apply parse_tail_segchars
      intro c hc
      split at hc
      · simp only [List.mem_singleton] at hc
        subst hc; decide
      · exact hpa c hc
    rw [htail]
    cases hr : parse_hostport (parse_userinfo auth pa).2 pa with
    | none => exact absurd hr hhp
    | some r => obtain ⟨host, port⟩ := r; simp
  · simp only [hs, if_false, parse_tail_segchars h]
    simp

/-- C17.  `ne_uri_parse` fails on the empty text and succeeds on every
non-empty text made only of SEGMENT-CHAR bytes. -/
theorem parse_empty_and_segchars :
    ne_uri_parse [] = none ∧
    ∀ u : List Nat, u ≠ [] → (∀ c ∈ u, inClass URI_SEGCHAR c = true) →
      ne_uri_parse u ≠ none := by
  refine ⟨by decide, ?_⟩
  intro u hne h
  have h0 : u.headD 0 ≠ 0 := by
    cases u with
    | nil => exact absurd rfl hne
    | cons x xs => exact (segchar_char x (h x (by simp))).1
  have hh := parse_hier_segchars (s := (parse_scheme u).2)
    (fun c hc => h c (parse_scheme_subset u c hc))
  simp only [ne_uri_parse, h0, if_false]
  cases hr : parse_hier (parse_scheme u).2 with
  | none => exact absurd hr hh
  | some c => simp

/-- C17 at `"a:b@c/d"`. -/
theorem parse_empty_and_segchars_witness : ne_uri_parse (bytes "a:b@c/d") ≠ none :=
  parse_empty_and_segchars.2 (bytes "a:b@c/d") (by decide) (by decide)

set_option maxRecDepth 100000 in
theorem table_single_bit : ∀ c < 256, ∃ k < 15, uri_lookup c = 2 ^ k := by decide

set_option maxRecDepth 100000 in
theorem table_unreserved : ∀ c < 256, inClass URI_UNRESERVED c = is_unreserved c := by decide

set_option maxRecDepth 100000 in
theorem table_subdelim : ∀ c < 256, inClass URI_SUBDELIM c = is_subdelim c := by decide

set_option maxRecDepth 100000 in
theorem table_gendelim : ∀ c < 256, inClass URI_GENDELIM c = is_gendelim c := by decide

set_option maxRecDepth 100000 in
theorem table_escape : ∀ c < 256,
    inClass URI_ESCAPE c = (!is_unreserved c && c != 47 && c != 37) := by decide

set_option maxRecDepth 100000 in
theorem table_escape_other : ∀ c < 256, (c ≤ 32 ∨ c = 127 ∨ 128 ≤ c) →
    inClass URI_ESCAPE c = true := by decide

/-- C18.  Each of the 256 table entries is a single base bit, and for every
byte: it is UNRESERVED iff it is a letter, a digit or one of `-._~`; a
sub-delim iff it is one of `!$&'()*+,;=`; a gen-delim iff it is one of
`:/?#[]@`; ESCAPE-WORTHY iff it is not UNRESERVED, not `/` and not `%`.  Every
control byte, the space and every byte from 0x80 on is ESCAPE-WORTHY. -/
theorem classifier_table :
    (∀ c < 256, ∃ k < 15, uri_lookup c = 2 ^ k) ∧
    (∀ c < 256, inClass URI_UNRESERVED c = is_unreserved c) ∧
    (∀ c < 256, inClass URI_SUBDELIM c = is_subdelim c) ∧
    (∀ c < 256, inClass URI_GENDELIM c = is_gendelim c) ∧
    (∀ c < 256, inClass URI_ESCAPE c = (!is_unreserved c && c != 47 && c != 37)) ∧
    (∀ c < 256, (c ≤ 32 ∨ c = 127 ∨ 128 ≤ c) → inClass URI_ESCAPE c = true) :=
  ⟨table_single_bit, table_unreserved, table_subdelim, table_gendelim, table_escape,
    table_escape_other⟩

/-! ## `ne_uri_cmp` -/


theorem headD_eq_zero {l : List Nat} (h : 0 ∉ l) : l.headD 0 = 0 ↔ l = [] := by
  cases l with
  | nil => simp
  | cons x xs =>
    have : x ≠ 0 := fun e => h (by simp [e])
    simp [this]

/-- C11.  For component sets `a` and `b` with scheme, host and path present,
`ne_uri_cmp a b` is 0 iff one path is empty and the other is `"/"`, or the
paths are equal, hosts and schemes are equal ignoring case and the ports are
equal.  A result that is not 0 is that of the first field that differs, in
the order path, host, scheme, port. -/
theorem uri_cmp_result (a b : ne_uri) (sa ha pa sb hb pb : List Nat)
    (hsa : a.scheme = some sa) (hha : a.host = some ha) (hpa : a.path = some pa)
    (hsb : b.scheme = some sb) (hhb : b.host = some hb) (hpb : b.path = some pb)
    (zsa : 0 ∉ sa) (zha : 0 ∉ ha) (zpa : 0 ∉ pa)
    (zsb : 0 ∉ sb) (zhb : 0 ∉ hb) (zpb : 0 ∉ pb) :
    ∃ n, ne_uri_cmp a b = some n ∧
      (n = 0 ↔ ((pa = [] ∧ pb = [47]) ∨ (pb = [] ∧ pa = [47]) ∨
        (pa = pb ∧ ha.map tolower = hb.map tolower ∧ sa.map tolower = sb.map tolower ∧
          a.port = b.port))) ∧
      (n ≠ 0 →
        (strcmp pa pb ≠ 0 ∧ n = strcmp pa pb) ∨
        (pa = pb ∧ strcasecmp ha hb ≠ 0 ∧ n = strcasecmp ha hb) ∨
        (pa = pb ∧ ha.map tolower = hb.map tolower ∧ strcasecmp sa sb ≠ 0 ∧
          n = strcasecmp sa sb) ∨
        (pa = pb ∧ ha.map tolower = hb.map tolower ∧ sa.map tolower = sb.map tolower ∧
          ((a.port > b.port ∧ n = 1) ∨ (a.port < b.port ∧ n = -1)))) := by
  have z47 : (0 : Nat) ∉ [47] := by decide
  have e1 := headD_eq_zero zpa
  have e2 := headD_eq_zero zpb
  have e3 := strcmp_eq_zero zpb z47
  have e4 := strcmp_eq_zero zpa z47
  have e5 := strcmp_eq_zero zpa zpb
  have e6 := strcasecmp_eq_zero zha zhb
  have e7 := strcasecmp_eq_zero zsa zsb
  simp only [ne_uri_cmp, hsa, hha, hpa, hsb, hhb, hpb, e1, e2, e3, e4]
  by_cases c1 : pa = [] ∧ pb = [47]
  · exact ⟨0, by simp only [c1, and_self, if_true], by simp [c1], fun h => absurd rfl h⟩
  by_cases c2 : pb = [] ∧ pa = [47]
  · exact ⟨0, by simp [c2], by simp [c2], fun h => absurd rfl h⟩
  simp only [c1, c2, if_false]
  by_cases c3 : strcmp pa pb = 0
  · have hp : pa = pb := e5.1 c3
    by_cases c4 : strcasecmp ha hb = 0
    · have hh := e6.1 c4
      by_cases c5 : strcasecmp sa sb = 0
      · have hs := e7.1 c5
        simp only [c3, c4, c5, ne_eq, not_true_eq_false, if_false]
        by_cases c6 : a.port > b.port
        · refine ⟨1, by simp only [c6, if_true], ?_, ?_⟩
          · simp only [one_ne_zero, false_iff]
            intro h
            rcases h with h | h | h
            · first | exact c1 h | exact h.elim
            · first | exact c2 h | exact h.elim
            · omega
          · intro _; exact Or.inr (Or.inr (Or.inr ⟨hp, hh, hs, Or.inl ⟨c6, rfl⟩⟩))
        · by_cases c7 : a.port < b.port
          · refine ⟨-1, by simp only [c6, c7, if_true, if_false], ?_, ?_⟩
            · simp only [Int.reduceNeg, neg_eq_zero, one_ne_zero, false_iff]
              intro h
              rcases h with h | h | h
              · first | exact c1 h | exact h.elim
              · first | exact c2 h | exact h.elim
              · omega
            · intro _; exact Or.inr (Or.inr (Or.inr ⟨hp, hh, hs, Or.inr ⟨c7, rfl⟩⟩))
          · refine ⟨0, by simp only [c6, c7, if_false], ?_, fun h => absurd rfl h⟩
            simp only [true_iff]
            exact Or.inr (Or.inr ⟨hp, hh, hs, by omega⟩)
      · refine ⟨strcasecmp sa sb, by simp only [c3, c4, c5, ne_eq, not_true_eq_false,
          not_false_eq_true, if_true, if_false], ?_, ?_⟩
        · constructor
          · intro h; exact absurd h c5
          · intro h
            rcases h with h | h | h
            · first | exact absurd h c1 | exact h.elim
            · first | exact absurd h c2 | exact h.elim
            · exact e7.2 h.2.2.1
        · intro _; exact Or.inr (Or.inr (Or.inl ⟨hp, hh, c5, rfl⟩))
    · refine ⟨strcasecmp ha hb, by simp only [c3, c4, ne_eq, not_true_eq_false,
        not_false_eq_true, if_true, if_false], ?_, ?_⟩
      · constructor
        · intro h; exact absurd h c4
        · intro h
          rcases h with h | h | h
          · first | exact absurd h c1 | exact h.elim
          · first | exact absurd h c2 | exact h.elim
          · exact e6.2 h.2.1
      · intro _; exact Or.inr (Or.inl ⟨hp, c4, rfl⟩)
  · refine ⟨strcmp pa pb, by simp only [c3, ne_eq, not_false_eq_true, if_true], ?_, ?_⟩
    · constructor
      · intro h; exact absurd h c3
      · intro h
        rcases h with h | h | h
        · first | exact absurd h c1 | exact h.elim
        · first | exact absurd h c2 | exact h.elim
        · exact e5.2 h.1
    · intro _; exact Or.inl ⟨c3, rfl⟩

/-- C11 at `http://Example/a` with port 80 against `HTTP://example/a` with
port 443. -/
theorem uri_cmp_result_witness :
    ∃ n, ne_uri_cmp
        { scheme := some (bytes "http"), host := some (bytes "Example"), userinfo := none,
          port := 80, path := some (bytes "/a"), query := none, fragment := none }
        { scheme := some (bytes "HTTP"), host := some (bytes "example"), userinfo := none,
          port := 443, path := some (bytes "/a"), query := none, fragment := none } = some n ∧
      (n = 0 ↔ ((bytes "/a" = [] ∧ bytes "/a" = [47]) ∨ (bytes "/a" = [] ∧ bytes "/a" = [47]) ∨
        (bytes "/a" = bytes "/a" ∧
          (bytes "Example").map tolower = (bytes "example").map tolower ∧
          (bytes "http").map tolower = (bytes "HTTP").map tolower ∧ (80 : Nat) = 443))) ∧
      (n ≠ 0 →
        (strcmp (bytes "/a") (bytes "/a") ≠ 0 ∧ n = strcmp (bytes "/a") (bytes "/a")) ∨
        (bytes "/a" = bytes "/a" ∧ strcasecmp (bytes "Example") (bytes "example") ≠ 0 ∧
          n = strcasecmp (bytes "Example") (bytes "example")) ∨
        (bytes "/a" = bytes "/a" ∧
          (bytes "Example").map tolower = (bytes "example").map tolower ∧
          strcasecmp (bytes "http") (bytes "HTTP") ≠ 0 ∧
          n = strcasecmp (bytes "http") (bytes "HTTP")) ∨
        (bytes "/a" = bytes "/a" ∧
          (bytes "Example").map tolower = (bytes "example").map tolower ∧
          (bytes "http").map tolower = (bytes "HTTP").map tolower ∧
          (((80 : Nat) > 443 ∧ n = 1) ∨ ((80 : Nat) < 443 ∧ n = -1)))) :=
  uri_cmp_result _ _ (bytes "http") (bytes "Example") (bytes "/a") (bytes "HTTP")
    (bytes "example") (bytes "/a") rfl rfl rfl rfl rfl rfl
    (by decide) (by decide) (by decide) (by decide) (by decide) (by decide)

/-! ## `ne_path_compare` and `ne_path_childof` -/

theorem trailing_slash_iff (a : List Nat) :
    ne_path_has_trailing_slash a = true ↔ a.getLast? = some 47 := by
  unfold ne_path_has_trailing_slash
  rcases List.eq_nil_or_concat a with rfl | ⟨l, x, rfl⟩
  · simp
  · simp [List.getD_eq_getElem?_getD]

theorem not_mem_take {a : List Nat} (n : Nat) (h : 0 ∉ a) : 0 ∉ a.take n :=
  fun hm => h (List.mem_of_mem_take hm)

theorem map_tolower_length {a b : List Nat} (h : a.map tolower = b.map tolower) :
    a.length = b.length := by
  have := congrArg List.length h
  simpa using this

theorem path_compare_eq (a b : List Nat) [Decidable (slash_exception a b)] :
    ne_path_compare a b =
      if strcasecmp a b ≠ 0 then
        if slash_exception a b then
          if strncasecmp a b (min (a.length : Int) (b.length : Int)).toNat = 0 then 0
          else strcasecmp a b
        else strcasecmp a b
      else strcasecmp a b := by
  unfold ne_path_compare slash_exception
  dsimp only
  congr

theorem slash_exception_iff (a b : List Nat) :
    slash_exception a b ↔
      ((a.length = b.length + 1 ∧ ne_path_has_trailing_slash a = true ∧
         ne_path_has_trailing_slash b = false) ∨
       (b.length = a.length + 1 ∧ ne_path_has_trailing_slash b = true ∧
         ne_path_has_trailing_slash a = false)) := by
  unfold slash_exception
  cases ne_path_has_trailing_slash a <;> cases ne_path_has_trailing_slash b <;>
    simp <;> omega

/-- `ne_path_compare` gives 0 exactly for texts equal ignoring case, or equal
ignoring case up to one trailing slash that only the longer one has. -/
theorem path_compare_iff {a b : List Nat} (ha : 0 ∉ a) (hb : 0 ∉ b) :
    ne_path_compare a b = 0 ↔
      (a.map tolower = b.map tolower ∨
       (a.length = b.length + 1 ∧ ne_path_has_trailing_slash a = true ∧
         ne_path_has_trailing_slash b = false ∧
         (a.take b.length).map tolower = b.map tolower) ∨
       (b.length = a.length + 1 ∧ ne_path_has_trailing_slash b = true ∧
         ne_path_has_trailing_slash a = false ∧
         (b.take a.length).map tolower = a.map tolower)) := by
  have e0 := strcasecmp_eq_zero ha hb
  have en : ∀ n, strncasecmp a b n = 0 ↔ (a.take n).map tolower = (b.take n).map tolower :=
    fun n => strcasecmp_eq_zero (not_mem_take n ha) (not_mem_take n hb)
  haveI : Decidable (slash_exception a b) := Classical.propDecidable _
  rw [path_compare_eq]
  by_cases h0 : strcasecmp a b = 0
  · rw [if_neg (not_not.2 h0)]
    exact ⟨fun _ => Or.inl (e0.1 h0), fun _ => h0⟩
  · have hne : ¬ a.map tolower = b.map tolower := fun h => h0 (e0.2 h)
    rw [if_pos h0]
    by_cases hex : slash_exception a b
    · rw [if_pos hex]
      rcases (slash_exception_iff a b).1 hex with ⟨hl, hta, htb⟩ | ⟨hl, htb, hta⟩
      · have hmin : (min (a.length : Int) (b.length : Int)).toNat = b.length := by omega
        rw [hmin]
        constructor
        · intro h
          by_cases hs : strncasecmp a b b.length = 0
          · have := (en _).1 hs
            rw [List.take_length] at this
            exact Or.inr (Or.inl ⟨hl, hta, htb, this⟩)
          · rw [if_neg hs] at h; exact absurd h h0
        · rintro (h | ⟨_, _, _, h⟩ | ⟨h, _⟩)
          · exact absurd h hne
          · have : strncasecmp a b b.length = 0 := (en _).2 (by rw [List.take_length]; exact h)
            rw [if_pos this]
          · omega
      · have hmin : (min (a.length : Int) (b.length : Int)).toNat = a.length := by omega
        rw [hmin]
        constructor
        · intro h
          by_cases hs : strncasecmp a b a.length = 0
          · have := (en _).1 hs
            rw [List.take_length] at this
            exact Or.inr (Or.inr ⟨hl, htb, hta, this.symm⟩)
          · rw [if_neg hs] at h; exact absurd h h0
        · rintro (h | ⟨h, _⟩ | ⟨_, _, _, h⟩)
          · exact absurd h hne
          · omega
          · have : strncasecmp a b a.length = 0 :=
              (en _).2 (by rw [List.take_length]; exact h.symm)
            rw [if_pos this]
    · rw [if_neg hex]
      constructor
      · intro h; exact absurd h h0
      · rintro (h | ⟨h1, h2, h3, _⟩ | ⟨h1, h2, h3, _⟩)
        · exact absurd h hne
        · exact absurd ((slash_exception_iff a b).2 (Or.inl ⟨h1, h2, h3⟩)) hex
        · exact absurd ((slash_exception_iff a b).2 (Or.inr ⟨h1, h2, h3⟩)) hex

theorem tolower_eq_slash (x : Nat) : tolower x = 47 ↔ x = 47 := by
  unfold tolower
  split <;> omega

theorem trailing_slash_map (a : List Nat) :
    ne_path_has_trailing_slash (a.map tolower) = ne_path_has_trailing_slash a := by
  rw [Bool.eq_iff_iff, trailing_slash_iff, trailing_slash_iff, List.getLast?_map]
  cases a.getLast? with
  | none => simp
  | some x => simp [tolower_eq_slash]

theorem trailing_slash_congr {a b : List Nat} (h : a.map tolower = b.map tolower) :
    ne_path_has_trailing_slash a = ne_path_has_trailing_slash b := by
  rw [← trailing_slash_map a, ← trailing_slash_map b, h]

theorem eq_take_append_slash {x : List Nat} {n : Nat} (hl : x.length = n + 1)
    (ht : ne_path_has_trailing_slash x = true) : x = x.take n ++ [47] := by
  rw [trailing_slash_iff] at ht
  rcases List.eq_nil_or_concat x with rfl | ⟨l, y, rfl⟩
  · simp at hl
  · have hn : l.length = n := by simpa using hl
    have ht' : y = 47 := by simpa using ht
    subst ht'
    subst hn
    simp

theorem path_compare_refl (a : List Nat) : ne_path_compare a a = 0 := by
  have h : strcasecmp a a = 0 := strcmp_self _
  unfold ne_path_compare
  simp only [h, ne_eq, not_true_eq_false, if_false]

theorem path_compare_symm {a b : List Nat} (ha : 0 ∉ a) (hb : 0 ∉ b) :
    ne_path_compare a b = 0 ↔ ne_path_compare b a = 0 := by
  rw [path_compare_iff ha hb, path_compare_iff hb ha]
  constructor
  · rintro (h | h | h)
    · exact Or.inl h.symm
    · exact Or.inr (Or.inr h)
    · exact Or.inr (Or.inl h)
  · rintro (h | h | h)
    · exact Or.inl h.symm
    · exact Or.inr (Or.inr h)
    · exact Or.inr (Or.inl h)

theorem path_compare_trans {a b c : List Nat} (ha : 0 ∉ a) (hb : 0 ∉ b) (hc : 0 ∉ c)
    (hab : ne_path_compare a b = 0) (hbc : ne_path_compare b c = 0) :
    ne_path_compare a c = 0 := by
  rw [path_compare_iff ha hb] at hab
  rw [path_compare_iff hb hc] at hbc
  rw [path_compare_iff ha hc]
  rcases hab with hab | ⟨l1, ta, tb, e1⟩ | ⟨l1, tb, ta, e1⟩
  · -- a and b are equal ignoring case
    have hl := map_tolower_length hab
    have ht := trailing_slash_congr hab
    rcases hbc with hbc | ⟨l2, tb, tc, e2⟩ | ⟨l2, tc, tb, e2⟩
    · exact Or.inl (hab.trans hbc)
    · refine Or.inr (Or.inl ⟨by omega, ht ▸ tb, tc, ?_⟩)
      rw [List.map_take, hab, ← List.map_take]; exact e2
    · refine Or.inr (Or.inr ⟨by omega, tc, ht ▸ tb, ?_⟩)
      rw [hl, e2, hab]
  · rcases hbc with hbc | ⟨l2, tb', tc, e2⟩ | ⟨l2, tc, tb', e2⟩
    · have hl := map_tolower_length hbc
      have ht := trailing_slash_congr hbc
      refine Or.inr (Or.inl ⟨by omega, ta, ht ▸ tb, ?_⟩)
      rw [← hl, e1, hbc]
    · rw [tb] at tb'; cases tb'
    · -- a and c are both b with a slash appended
      left
      have ea := eq_take_append_slash
        (by rw [List.length_map]; exact l1 : (a.map tolower).length = b.length + 1)
        (by rw [trailing_slash_map]; exact ta)
      have ec := eq_take_append_slash
        (by rw [List.length_map]; exact l2 : (c.map tolower).length = b.length + 1)
        (by rw [trailing_slash_map]; exact tc)
      rw [← List.map_take, e1] at ea
      rw [← List.map_take, e2] at ec
      rw [ea, ec]
  · rcases hbc with hbc | ⟨l2, tb', tc, e2⟩ | ⟨l2, tc, tb', e2⟩
    · have hl := map_tolower_length hbc
      have ht := trailing_slash_congr hbc
      refine Or.inr (Or.inr ⟨by omega, ht ▸ tb, ta, ?_⟩)
      rw [List.map_take, ← hbc, ← List.map_take]; exact e1
    · left
      have hl : a.length = c.length := by omega
      rw [← e1, ← e2, hl]
    · rw [tb] at tb'; cases tb'

/-- C12.  `ne_path_compare a b` is 0 iff `a` equals `b` ignoring case, or
exactly one of them ends in `/`, that one is longer by one byte, and without
its last byte it equals the other ignoring case.  For `a` that does not end in
`/`, `ne_path_compare a (a ++ "/")` is 0; `"/foo"` against `"/foo/"` and
against `"/foo"` gives 0, against `"/bar"` not. -/
theorem path_compare_zero (a b : List Nat) (ha : 0 ∉ a) (hb : 0 ∉ b) :
    (ne_path_compare a b = 0 ↔
      (a.map tolower = b.map tolower ∨
       (a.length = b.length + 1 ∧ a.getLast? = some 47 ∧ b.getLast? ≠ some 47 ∧
         a.dropLast.map tolower = b.map tolower) ∨
       (b.length = a.length + 1 ∧ b.getLast? = some 47 ∧ a.getLast? ≠ some 47 ∧
         b.dropLast.map tolower = a.map tolower))) ∧
    (a.getLast? ≠ some 47 → ne_path_compare a (a ++ [47]) = 0) ∧
    ne_path_compare (bytes "/foo") (bytes "/foo/") = 0 ∧
    ne_path_compare (bytes "/foo") (bytes "/foo") = 0 ∧
    ne_path_compare (bytes "/foo") (bytes "/bar") ≠ 0 := by
  have hfalse : ∀ x : List Nat, ne_path_has_trailing_slash x = false ↔ x.getLast? ≠ some 47 := by
    intro x
    have := trailing_slash_iff x
    cases h : ne_path_has_trailing_slash x
    · rw [h] at this
      simp only [Bool.false_eq_true, false_iff] at this
      simp [this]
    · rw [h] at this
      simp only [true_iff] at this
      simp [this]
  have hiff : ∀ {x y : List Nat}, 0 ∉ x → 0 ∉ y →
      (ne_path_compare x y = 0 ↔
        (x.map tolower = y.map tolower ∨
         (x.length = y.length + 1 ∧ x.getLast? = some 47 ∧ y.getLast? ≠ some 47 ∧
           x.dropLast.map tolower = y.map tolower) ∨
         (y.length = x.length + 1 ∧ y.getLast? = some 47 ∧ x.getLast? ≠ some 47 ∧
           y.dropLast.map tolower = x.map tolower))) := by
    intro x y hx hy
    rw [path_compare_iff hx hy, trailing_slash_iff, trailing_slash_iff, hfalse, hfalse]
    constructor
    · rintro (h | ⟨h1, h2, h3, h4⟩ | ⟨h1, h2, h3, h4⟩)
      · exact Or.inl h
      · refine Or.inr (Or.inl ⟨h1, h2, h3, ?_⟩)
        rw [List.dropLast_eq_take, h1]; exact h4
      · refine Or.inr (Or.inr ⟨h1, h2, h3, ?_⟩)
        rw [List.dropLast_eq_take, h1]; exact h4
    · rintro (h | ⟨h1, h2, h3, h4⟩ | ⟨h1, h2, h3, h4⟩)
      · exact Or.inl h
      · refine Or.inr (Or.inl ⟨h1, h2, h3, ?_⟩)
        rw [List.dropLast_eq_take, h1] at h4; exact h4
      · refine Or.inr (Or.inr ⟨h1, h2, h3, ?_⟩)
        rw [List.dropLast_eq_take, h1] at h4; exact h4
  refine ⟨hiff ha hb, ?_, by decide, by decide, by decide⟩
  intro hna
  have hz : 0 ∉ a ++ [47] := by
    intro h
    rcases List.mem_append.1 h with h | h
    · exact ha h
    · simp at h
  rw [hiff ha hz]
  refine Or.inr (Or.inr ⟨by simp, by simp, hna, by simp⟩)

/-- C12 at `"/Foo/"` and `"/foo"`. -/
theorem path_compare_zero_witness : ne_path_compare (bytes "/Foo/") (bytes "/foo") = 0 :=
  (path_compare_zero (bytes "/Foo/") (bytes "/foo") (by decide) (by decide)).1.2
    (Or.inr (Or.inl ⟨by decide, by decide, by decide, by decide⟩))

/-- C13.  `ne_path_childof parent child` is false when `parent` is not shorter
than `child`; otherwise it is true exactly when `ne_path_compare` of `parent`
and the first `len(parent)` bytes of `child` is 0.  Hence it is true iff
`parent` is shorter than `child` and equals that first part of `child`
ignoring case: true for `"/a"` with `"/a/b"` and with `"/ab"`, false for
`"/a/b"` with `"/a"`. -/
theorem childof_iff (parent child : List Nat) (hp : 0 ∉ parent) (hc : 0 ∉ child) :
    (child.length ≤ parent.length → ne_path_childof parent child = false) ∧
    (parent.length < child.length →
      (ne_path_childof parent child = true ↔
        ne_path_compare parent (child.take parent.length) = 0)) ∧
    (ne_path_childof parent child = true ↔
      parent.length < child.length ∧
        parent.map tolower = (child.take parent.length).map tolower) ∧
    ne_path_childof (bytes "/a") (bytes "/a/b") = true ∧
    ne_path_childof (bytes "/a") (bytes "/ab") = true ∧
    ne_path_childof (bytes "/a/b") (bytes "/a") = false := by
  have h1 : child.length ≤ parent.length → ne_path_childof parent child = false := by
    intro h
    unfold ne_path_childof
    rw [if_pos h]
  have h2 : parent.length < child.length →
      (ne_path_childof parent child = true ↔
        ne_path_compare parent (child.take parent.length) = 0) := by
    intro h
    unfold ne_path_childof
    rw [if_neg (by omega)]
    simp
  refine ⟨h1, h2, ?_, by decide, by decide, by decide⟩
  by_cases hl : parent.length < child.length
  · rw [h2 hl, path_compare_iff hp (not_mem_take _ hc)]
    have hlen : (child.take parent.length).length = parent.length := by
      rw [List.length_take]; omega
    constructor
    · rintro (h | ⟨h, _⟩ | ⟨h, _⟩)
      · exact ⟨hl, h⟩
      · omega
      · omega
    · rintro ⟨_, h⟩
      exact Or.inl h
  · rw [h1 (by omega)]
    constructor
    · intro h; cases h
    · rintro ⟨h, _⟩; exact absurd h hl

/-- C13 at `"/A"` and `"/a/b"`. -/
theorem childof_iff_witness : ne_path_childof (bytes "/A") (bytes "/a/b") = true :=
  (childof_iff (bytes "/A") (bytes "/a/b") (by decide) (by decide)).2.2.1.2
    ⟨by decide, by decide⟩

/-- C20.  On path texts, `ne_path_compare a b = 0` is an equivalence relation:
it is reflexive, symmetric and transitive. -/
theorem path_compare_equivalence :
    (∀ a : List Nat, ne_path_compare a a = 0) ∧
    (∀ a b : List Nat, 0 ∉ a → 0 ∉ b →
      (ne_path_compare a b = 0 ↔ ne_path_compare b a = 0)) ∧
    (∀ a b c : List Nat, 0 ∉ a → 0 ∉ b → 0 ∉ c →
      ne_path_compare a b = 0 → ne_path_compare b c = 0 → ne_path_compare a c = 0) :=
  ⟨path_compare_refl, fun _ _ ha hb => path_compare_symm ha hb,
    fun _ _ _ ha hb hc => path_compare_trans ha hb hc⟩

/-- C20 at `"/foo/"`, `"/foo"` and `"/FOO/"`. -/
theorem path_compare_equivalence_witness :
    ne_path_compare (bytes "/foo/") (bytes "/FOO/") = 0 :=
  path_compare_equivalence.2.2 (bytes "/foo/") (bytes "/foo") (bytes "/FOO/")
    (by decide) (by decide) (by decide) (by decide) (by decide)

/-! ## `ne_path_parent` -/

theorem find_slash_none {mem : List Nat} : ∀ n : Nat,
    (∀ i, 1 ≤ i → i ≤ n → mem.getD i 0 ≠ 47) → find_slash mem n = 0 := by
  intro n
  induction n with
  | zero => intro _; rfl
  | succ k ih =>
    intro h
    unfold find_slash
    simp only [h (k + 1) (by omega) (by omega), ne_eq, not_false_eq_true, if_true]
    exact ih (fun i h1 h2 => h i h1 (by omega))

theorem find_slash_last {mem : List Nat} {k : Nat} (hk : 1 ≤ k) (hc : mem.getD k 0 = 47) :
    ∀ n : Nat, k ≤ n → (∀ i, k < i → i ≤ n → mem.getD i 0 ≠ 47) → find_slash mem n = k := by
  intro n
  induction n with
  | zero => intro h; omega
  | succ m ih =>
    intro hkn h
    unfold find_slash
    by_cases e : k = m + 1
    · subst e
      simp only [hc, ne_eq, not_true_eq_false, if_false]
    · simp only [h (m + 1) (by omega) (by omega), ne_eq, not_false_eq_true, if_true]
      exact ih (by omega) (fun i h1 h2 => h i h1 (by omega))

theorem strip_slash_concat (l : List Nat) (x : Nat) :
    strip_slash (l ++ [x]) = if x = 47 then l else l ++ [x] := by
  unfold strip_slash
  rw [List.getLast?_concat]
  by_cases h : x = 47
  · simp [h]
  · simp [h]

/-- `ne_path_parent` with offsets as natural numbers. -/
theorem parent_eq (p : List Nat) :
    ne_path_parent p =
      if (strip_slash p).length = 0 then none
      else if find_slash p ((strip_slash p).length - 1) = 0 ∧ p.getD 0 0 ≠ 47 then none
      else some (p.take (find_slash p ((strip_slash p).length - 1) + 1)) := by
  rcases List.eq_nil_or_concat p with rfl | ⟨l, x, rfl⟩
  · decide
  · rw [List.concat_eq_append]
    have hlen : ((l ++ [x]).length : Int) - 1 = (l.length : Int) := by simp
    have hx : (l ++ [x]).getD l.length 0 = x := by
      rw [getD_append_length]; rfl
    rw [strip_slash_concat]
    unfold ne_path_parent
    simp only [hlen, Int.toNat_ofNat, hx, Int.natCast_nonneg, true_and]
    by_cases h47 : x = 47
    · simp only [h47, if_true]
      by_cases hl : l.length = 0
      · have : ¬ (0 : Int) < (l.length : Int) - 1 := by omega
        simp only [this, if_false, hl]
        simp
      · by_cases hl1 : l.length = 1
        · have h1 : ¬ (0 : Int) < (l.length : Int) - 1 := by omega
          have h2 : (l.length : Int) - 1 = 0 := by omega
          have h3 : l.length - 1 = 0 := by omega
          simp only [h1, if_false, h2, hl, h3, find_slash]
          simp
        · have h1 : (0 : Int) < (l.length : Int) - 1 := by omega
          have h2 : ((l.length : Int) - 1).toNat = l.length - 1 := by omega
          simp only [h1, if_true, h2, hl, if_false]
          have h3 : ¬ ((find_slash (l ++ [47]) (l.length - 1) : Int) < 0) := by omega
          simp only [h3, false_or, Int.toNat_ofNat, Nat.cast_eq_zero]
    · simp only [h47, if_false]
      by_cases hl : l.length = 0
      · have h1 : ¬ (0 : Int) < (l.length : Int) := by omega
        simp only [h1, if_false, hl, List.length_append, List.length_singleton, zero_add,
          one_ne_zero, Nat.sub_self, find_slash]
        simp
      · have h1 : (0 : Int) < (l.length : Int) := by omega
        simp only [h1, if_true, List.length_append, List.length_singleton,
          Nat.add_sub_cancel, Nat.add_one_ne_zero, if_false]
        have h3 : ¬ ((find_slash (l ++ [x]) l.length : Int) < 0) := by omega
        simp only [h3, false_or, Int.toNat_ofNat, Nat.cast_eq_zero]

theorem strip_slash_append (p : List Nat) : ∃ t, p = strip_slash p ++ t := by
  unfold strip_slash
  split
  · rename_i h
    exact ⟨[47], (List.dropLast_append_getLast? 47 (by simp [h])).symm⟩
  · exact ⟨[], by simp⟩

theorem exists_last_split {l : List Nat} {x : Nat} (h : x ∈ l) :
    ∃ a b, l = a ++ x :: b ∧ x ∉ b := by
  have hr : x ∈ l.reverse := List.mem_reverse.2 h
  obtain ⟨as, bs, e, hn⟩ := List.eq_append_cons_of_mem hr
  refine ⟨bs.reverse, as.reverse, ?_, fun hm => hn (List.mem_reverse.1 hm)⟩
  have := congrArg List.reverse e
  simpa using this

theorem parent_none {p : List Nat} (h : 47 ∉ strip_slash p) : ne_path_parent p = none := by
  obtain ⟨t, ht⟩ := strip_slash_append p
  rw [parent_eq]
  by_cases hn : (strip_slash p).length = 0
  · rw [if_pos hn]
  · rw [if_neg hn]
    have hget : ∀ i, i < (strip_slash p).length → p.getD i 0 ≠ 47 := by
      intro i hi
      rw [ht, getD_append_left hi, List.getD_eq_getElem?_getD, List.getElem?_eq_getElem hi]
      exact fun e => h (e ▸ List.getElem_mem hi)
    have hfs : find_slash p ((strip_slash p).length - 1) = 0 :=
      find_slash_none _ (fun i _ h2 => hget i (by omega))
    rw [if_pos ⟨hfs, hget 0 (by omega)⟩]

theorem parent_of_split {p a b : List Nat} (h : strip_slash p = a ++ 47 :: b)
    (hb : 47 ∉ b) : ne_path_parent p = some (a ++ [47]) := by
  obtain ⟨t, ht⟩ := strip_slash_append p
  have hp : p = a ++ 47 :: (b ++ t) := by rw [ht, h]; simp
  have hlen : (strip_slash p).length = a.length + 1 + b.length := by rw [h]; simp; omega
  have hga : p.getD a.length 0 = 47 := by
    rw [hp, getD_append_length]; rfl
  have hgb : ∀ i, a.length < i → i ≤ a.length + b.length → p.getD i 0 ≠ 47 := by
    intro i h1 h2
    obtain ⟨j, rfl⟩ : ∃ j, i = a.length + 1 + j := ⟨i - (a.length + 1), by omega⟩
    have e : p = (a ++ [47]) ++ (b ++ t) := by rw [hp]; simp
    have hj : j < b.length := by omega
    rw [e, List.getD_eq_getElem?_getD, List.getElem?_append_right (by simp)]
    simp only [List.length_append, List.length_singleton, Nat.add_sub_cancel_left]
    rw [List.getElem?_append_left hj, List.getElem?_eq_getElem hj]
    exact fun e => hb (e ▸ List.getElem_mem hj)
  have htake : p.take (a.length + 1) = a ++ [47] := by
    have e : p = (a ++ [47]) ++ (b ++ t) := by rw [hp]; simp
    rw [e, List.take_left']
    simp
  rw [parent_eq, if_neg (by omega), hlen]
  have hsub : a.length + 1 + b.length - 1 = a.length + b.length := by omega
  rw [hsub]
  by_cases ha : a.length = 0
  · have hfs : find_slash p (a.length + b.length) = 0 :=
      find_slash_none _ (fun i h1 h2 => hgb i (by omega) h2)
    have hg0 : p.getD 0 0 = 47 := by
      have := hga
      rw [ha] at this
      exact this
    have ht0 : p.take (0 + 1) = a ++ [47] := by
      have := htake
      rw [ha] at this
      exact this
    rw [hfs, if_neg (by rw [hg0]; simp), ht0]
  · have hfs : find_slash p (a.length + b.length) = a.length :=
      find_slash_last (by omega) hga _ (by omega) hgb
    rw [hfs, if_neg (by omega), htake]

/-- C16.  Let `p'` be `p` without one trailing `/`.  `ne_path_parent p` is
`NULL` iff `p'` has no `/`; otherwise it is the part of `p` up to and with the
last `/` of `p'`.  A result ends in `/` and is a proper initial part of `p`.
The parent of `"/foo/"` and of `"/foo"` is `"/"`; `"foo"`, `""` and `"/"` have
none. -/
theorem path_parent (p : List Nat) :
    (ne_path_parent p = none ↔ 47 ∉ strip_slash p) ∧
    (∀ a b, strip_slash p = a ++ 47 :: b → 47 ∉ b → ne_path_parent p = some (a ++ [47])) ∧
    (∀ r, ne_path_parent p = some r →
      r.getLast? = some 47 ∧ r <+: p ∧ r.length < p.length) ∧
    ne_path_parent (bytes "/foo/") = some (bytes "/") ∧
    ne_path_parent (bytes "/foo") = some (bytes "/") ∧
    ne_path_parent (bytes "foo") = none ∧
    ne_path_parent (bytes "") = none ∧
    ne_path_parent (bytes "/") = none := by
  refine ⟨?_, fun a b h hb => parent_of_split h hb, ?_, by decide, by decide, by decide,
    by decide, by decide⟩
  · constructor
    · intro h hm
      obtain ⟨a, b, e, hb⟩ := exists_last_split hm
      rw [parent_of_split e hb] at h
      cases h
    · exact parent_none
  · intro r hr
    by_cases hm : 47 ∈ strip_slash p
    · obtain ⟨a, b, e, hb⟩ := exists_last_split hm
      rw [parent_of_split e hb] at hr
      simp only [Option.some.injEq] at hr
      subst hr
      obtain ⟨t, ht⟩ := strip_slash_append p
      refine ⟨by simp, ⟨b ++ t, by rw [ht, e]; simp⟩, ?_⟩
      have hl : p.length = a.length + 1 + b.length + t.length := by
        rw [ht, e]; simp; omega
      simp only [List.length_append, List.length_singleton]
      by_cases hbt : b.length + t.length = 0
      · exfalso
        have hb0 : b = [] := List.length_eq_zero.1 (by omega)
        have ht0 : t = [] := List.length_eq_zero.1 (by omega)
        subst hb0; subst ht0
        have hp : p = a ++ [47] := by rw [ht, e]; simp
        have hs : strip_slash p = a := by rw [hp, strip_slash_concat]; simp
        rw [hs] at e
        have := congrArg List.length e
        simp at this
      · omega
    · rw [parent_none hm] at hr
      cases hr

/-! ## `ne_path_unescape` -/

theorem hexval_lt {c v : Nat} (h : hexval c = some v) : v < 16 := by
  unfold hexval at h
  split at h
  · simp only [Option.some.injEq] at h; omega
  · split at h
    · simp only [Option.some.injEq] at h; omega
    · split at h
      · simp only [Option.some.injEq] at h; omega
      · cases h

theorem isxdigit_iff (c : Nat) : isxdigit c = true ↔ ∃ v, hexval c = some v := by
  unfold isxdigit
  cases hexval c <;> simp

theorem strtol_pair {x y vx vy : Nat} (hx : hexval x = some vx) (hy : hexval y = some vy) :
    to_char (strtol16 [48, 120, x, y]) = 16 * vx + vy := by
  have hxd : isxdigit x = true := (isxdigit_iff x).2 ⟨vx, hx⟩
  have hsp : isspace 48 = false := by decide
  have hv : strtol16 [48, 120, x, y] = ((16 * vx + vy : Nat) : Int) := by
    simp [strtol16, hsp, hxd, strtol_digits, hx, hy]
  rw [hv]
  have h1 := hexval_lt hx
  have h2 := hexval_lt hy
  unfold to_char
  omega

theorem unescape_byte_aux {c : Nat} (rest : List Nat) (hc : c ≠ 37) :
    ∀ R, ne_path_unescape rest = R →
      ne_path_unescape (c :: rest) = R.map (fun r => c :: r) := by
  intro R hR
  unfold ne_path_unescape
  simp only [hc, if_false, hR]
  cases R <;> rfl

theorem unescape_byte {c : Nat} (rest : List Nat) (hc : c ≠ 37) :
    ne_path_unescape (c :: rest) = (ne_path_unescape rest).map (fun r => c :: r) :=
  unescape_byte_aux rest hc _ rfl

theorem unescape_pct_aux (x y : Nat) (t : List Nat) :
    ∀ R, ne_path_unescape t = R →
      ne_path_unescape (37 :: x :: y :: t) =
        if isxdigit x = true ∧ isxdigit y = true then
          R.map (fun r => to_char (strtol16 [48, 120, x, y]) :: r)
        else none := by
  intro R hR
  unfold ne_path_unescape
  simp only [if_true, hR]
  by_cases hx : isxdigit x = true
  · by_cases hy : isxdigit y = true
    · simp only [hx, hy, Bool.not_true, Bool.or_self, Bool.false_eq_true, if_false, and_self,
        if_true]
      cases R <;> rfl
    · have hy' : isxdigit y = false := by simpa using hy
      simp [hx, hy']
  · have hx' : isxdigit x = false := by simpa using hx
    simp [hx']

theorem unescape_pct (x y : Nat) (t : List Nat) :
    ne_path_unescape (37 :: x :: y :: t) =
      if isxdigit x = true ∧ isxdigit y = true then
        (ne_path_unescape t).map (fun r => to_char (strtol16 [48, 120, x, y]) :: r)
      else none :=
  unescape_pct_aux x y t _ rfl

theorem unescape_of_decodes {u r : List Nat} (h : Decodes u r) :
    ne_path_unescape u = some r := by
  induction h with
  | done => rfl
  | pct x y vx vy u r hx hy _ ih =>
    have hxd : isxdigit x = true := (isxdigit_iff x).2 ⟨vx, hx⟩
    have hyd : isxdigit y = true := (isxdigit_iff y).2 ⟨vy, hy⟩
    rw [unescape_pct, if_pos ⟨hxd, hyd⟩, ih, strtol_pair hx hy]
    rfl
  | byte c u r hc _ ih =>
    rw [unescape_byte _ hc, ih]
    rfl

theorem unescape_of_malformed {u : List Nat} (h : Malformed u) : ne_path_unescape u = none := by
  induction h with
  | here u hno =>
    cases u with
    | nil => simp [ne_path_unescape]
    | cons x t =>
      cases t with
      | nil => simp [ne_path_unescape]
      | cons y t =>
        have : ¬ (isxdigit x = true ∧ isxdigit y = true) := fun hh => hno ⟨x, y, t, rfl, hh.1, hh.2⟩
        rw [unescape_pct, if_neg this]
  | pct x y u hx hy _ ih =>
    rw [unescape_pct, if_pos ⟨hx, hy⟩, ih]
    rfl
  | byte c u hc _ ih =>
    rw [unescape_byte _ hc, ih]
    rfl

theorem decodes_or_malformed : ∀ (n : Nat) (u : List Nat), u.length ≤ n →
    (∃ r, Decodes u r) ∨ Malformed u := by
  intro n
  induction n with
  | zero =>
    intro u hu
    have : u = [] := List.length_eq_zero.1 (by omega)
    subst this
    exact Or.inl ⟨[], Decodes.done⟩
  | succ k ih =>
    intro u hu
    cases u with
    | nil => exact Or.inl ⟨[], Decodes.done⟩
    | cons c t =>
      have ht : t.length ≤ k := by simpa using hu
      by_cases hc : c = 37
      · subst hc
        by_cases hform : ∃ x y t', t = x :: y :: t' ∧ isxdigit x = true ∧ isxdigit y = true
        · obtain ⟨x, y, t', rfl, hx, hy⟩ := hform
          obtain ⟨vx, hvx⟩ := (isxdigit_iff x).1 hx
          obtain ⟨vy, hvy⟩ := (isxdigit_iff y).1 hy
          have ht' : t'.length ≤ k := by simp at ht; omega
          rcases ih t' ht' with ⟨r, hr⟩ | hm
          · exact Or.inl ⟨_, Decodes.pct x y vx vy t' r hvx hvy hr⟩
          · exact Or.inr (Malformed.pct x y t' hx hy hm)
        · exact Or.inr (Malformed.here t hform)
      · rcases ih t ht with ⟨r, hr⟩ | hm
        · exact Or.inl ⟨_, Decodes.byte c t r hc hr⟩
        · exact Or.inr (Malformed.byte c t hc hm)

theorem decodes_length {u r : List Nat} (h : Decodes u r) : r.length ≤ u.length := by
  induction h with
  | done => exact Nat.le_refl _
  | pct x y vx vy u r _ _ _ ih => simp only [List.length_cons]; omega
  | byte c u r _ _ ih => simp only [List.length_cons]; omega

theorem unescape_none_iff (u : List Nat) : ne_path_unescape u = none ↔ Malformed u := by
  constructor
  · intro h
    rcases decodes_or_malformed u.length u (Nat.le_refl _) with ⟨r, hr⟩ | hm
    · rw [unescape_of_decodes hr] at h; cases h
    · exact hm
  · exact unescape_of_malformed

theorem unescape_some_iff (u r : List Nat) : ne_path_unescape u = some r ↔ Decodes u r := by
  constructor
  · intro h
    rcases decodes_or_malformed u.length u (Nat.le_refl _) with ⟨r', hr⟩ | hm
    · rw [unescape_of_decodes hr] at h
      simp only [Option.some.injEq] at h
      subst h
      exact hr
    · rw [unescape_of_malformed hm] at h; cases h
  · exact unescape_of_decodes

/-- C14.  `ne_path_unescape` gives `NULL` iff its scan reaches a `%` that is not
followed by two hexadecimal digits; otherwise it gives the input with every
scanned `%XY` replaced by the byte `16 * hex X + hex Y` and the other bytes
unchanged, which is not longer than the input.  `"%2F"` and `"%2f"` give the
byte 0x2F, `"%2"` fails. -/
theorem unescape_scan (u : List Nat) :
    (ne_path_unescape u = none ↔ Malformed u) ∧
    (∀ r, ne_path_unescape u = some r ↔ Decodes u r) ∧
    (∀ r, ne_path_unescape u = some r → r.length ≤ u.length) ∧
    ne_path_unescape (bytes "%2F") = some [47] ∧
    ne_path_unescape (bytes "%2f") = some [47] ∧
    ne_path_unescape (bytes "%2") = none :=
  ⟨unescape_none_iff u, unescape_some_iff u,
    fun r h => decodes_length ((unescape_some_iff u r).1 h), by decide, by decide, by decide⟩

/-! ## `ne_path_escape` -/

theorem escape_ch_ne_zero (c : Nat) : path_escape_ch c ≠ 0 ↔ inClass URI_ESCAPE c = true := by
  simp [path_escape_ch, inClass]

theorem escape_count_ge : ∀ (p : List Nat) (acc : Nat), acc ≤ escape_count p acc := by
  intro p
  induction p with
  | nil => intro acc; exact Nat.le_refl _
  | cons c cs ih =>
    intro acc
    unfold escape_count
    exact Nat.le_trans (Nat.le_add_right _ _) (ih _)

theorem escape_count_zero : ∀ (p : List Nat) (acc : Nat),
    escape_count p acc = 0 → ∀ b ∈ p, path_escape_ch b = 0 := by
  intro p
  induction p with
  | nil => intro acc _ b hb; cases hb
  | cons c cs ih =>
    intro acc h b hb
    unfold escape_count at h
    have hle := escape_count_ge cs (acc + path_escape_ch c)
    rcases List.mem_cons.1 hb with e | e
    · subst e; omega
    · exact ih _ h b e

set_option maxRecDepth 100000 in
theorem hex_lower_digit : ∀ d < 16, hex_lower d = (Nat.digitChar d).toNat := by decide

theorem escape_loop_eq (p : List Nat) : escape_loop p = p.flatMap escape_byte := by
  induction p with
  | nil => rfl
  | cons c cs ih =>
    unfold escape_loop
    rw [List.flatMap_cons, ← ih]
    by_cases h : inClass URI_ESCAPE c = true
    · have hlt : c < 256 := inClass_lt h
      have hm : c % 256 = c := Nat.mod_eq_of_lt hlt
      rw [if_pos ((escape_ch_ne_zero c).2 h), hm, hex_lower_digit _ (by omega),
        hex_lower_digit _ (by omega)]
      simp [escape_byte, h]
    · have h0 : ¬ path_escape_ch c ≠ 0 := fun e => h ((escape_ch_ne_zero c).1 e)
      rw [if_neg h0]
      simp [escape_byte, h]

theorem flatMap_escape_id {p : List Nat} (h : ∀ b ∈ p, inClass URI_ESCAPE b = false) :
    p.flatMap escape_byte = p := by
  induction p with
  | nil => rfl
  | cons c cs ih =>
    rw [List.flatMap_cons, ih (fun b hb => h b (List.mem_cons_of_mem _ hb))]
    simp [escape_byte, h c (by simp)]

theorem escape_eq (p : List Nat) : ne_path_escape p = p.flatMap escape_byte := by
  unfold ne_path_escape
  by_cases h : escape_count p 0 = 0
  · rw [if_pos h]
    symm
    apply flatMap_escape_id
    intro b hb
    have := escape_count_zero p 0 h b hb
    cases hc : inClass URI_ESCAPE b with
    | false => rfl
    | true => exact absurd this ((escape_ch_ne_zero b).2 hc)
  · rw [if_neg h, escape_loop_eq]

theorem flatMap_escape_length (p : List Nat) :
    (p.flatMap escape_byte).length = p.length + 2 * p.countP (inClass URI_ESCAPE) := by
  induction p with
  | nil => rfl
  | cons c cs ih =>
    rw [List.flatMap_cons, List.length_append, ih, List.countP_cons]
    by_cases h : inClass URI_ESCAPE c = true
    · simp [escape_byte, h]; omega
    · simp [escape_byte, h]; omega

/-- C15.  `ne_path_escape p` is the concatenation, over the bytes `b` of `p`,
of `%` and the two lower-case hexadecimal digits of `b` when `b` is
ESCAPE-WORTHY and of `b` itself otherwise.  Its length is the length of `p`
plus twice the number of ESCAPE-WORTHY bytes, and it is `p` when no byte is
ESCAPE-WORTHY; `" "` gives `"%20"` and `"abc"` gives `"abc"`. -/
theorem escape_format (p : List Nat) :
    ne_path_escape p = p.flatMap escape_byte ∧
    (ne_path_escape p).length = p.length + 2 * p.countP (inClass URI_ESCAPE) ∧
    ((∀ b ∈ p, inClass URI_ESCAPE b = false) → ne_path_escape p = p) ∧
    ne_path_escape (bytes " ") = bytes "%20" ∧
    ne_path_escape (bytes "abc") = bytes "abc" := by
  refine ⟨escape_eq p, ?_, ?_, by decide, by decide⟩
  · rw [escape_eq, flatMap_escape_length]
  · intro h
    rw [escape_eq, flatMap_escape_id h]

/-! ## Decoding an encoded text -/

set_option maxRecDepth 100000 in
theorem hexval_hex_lower : ∀ d < 16, hexval (hex_lower d) = some d := by decide

theorem unescape_escape_loop : ∀ p : List Nat, 37 ∉ p →
    ne_path_unescape (escape_loop p) = some p := by
  intro p
  induction p with
  | nil => intro _; rfl
  | cons c cs ih =>
    intro h
    have hc : c ≠ 37 := fun e => h (by simp [e])
    have ih' := ih (fun hm => h (List.mem_cons_of_mem _ hm))
    unfold escape_loop
    by_cases he : path_escape_ch c ≠ 0
    · have hlt : c < 256 := inClass_lt ((escape_ch_ne_zero c).1 he)
      have hm : c % 256 = c := Nat.mod_eq_of_lt hlt
      have h1 := hexval_hex_lower (c / 16) (by omega)
      have h2 := hexval_hex_lower (c % 16) (by omega)
      rw [if_pos he, hm, unescape_pct,
        if_pos ⟨(isxdigit_iff _).2 ⟨_, h1⟩, (isxdigit_iff _).2 ⟨_, h2⟩⟩, ih',
        strtol_pair h1 h2]
      have : 16 * (c / 16) + c % 16 = c := by omega
      simp [this]
    · rw [if_neg he, unescape_byte _ hc, ih']
      rfl

theorem escape_eq_loop (p : List Nat) : ne_path_escape p = escape_loop p := by
  rw [escape_eq, escape_loop_eq]

/-- C19.  For a text `p` without NUL byte and without `%`, decoding the
encoding of `p` succeeds and gives `p`.  With a `%` in the text this fails:
`"%"` is encoded as itself and does not decode, and `"%41"` is encoded as
itself and decodes to `"A"`. -/
theorem unescape_escape (p : List Nat) (_h0 : 0 ∉ p) (hpct : 37 ∉ p) :
    ne_path_unescape (ne_path_escape p) = some p ∧
    ne_path_unescape (ne_path_escape (bytes "%")) = none ∧
    ne_path_unescape (ne_path_escape (bytes "%41")) = some (bytes "A") := by
  refine ⟨?_, by decide, by decide⟩
  rw [escape_eq_loop]
  exact unescape_escape_loop p hpct

/-- C19 at `"a b/~<>"`. -/
theorem unescape_escape_witness :
    ne_path_unescape (ne_path_escape (bytes "a b/~<>")) = some (bytes "a b/~<>") :=
  (unescape_escape (bytes "a b/~<>") (by decide) (by decide)).1

end NeUri
